import Mathlib

/-!
Shallow embedding of `src/bpe.py` (a byte-pair-encoding trainer/tokenizer).

Modelling conventions:

* Python strings are Lean `String`s (lists of unicode scalar values); `len`
  is the number of code points, which matches `List.length` on `String.data`.
* A Python `dict` is an association list in insertion order with unique keys;
  `dict[k] = v` is `dictInsert` (update in place if the key exists, append
  otherwise) and `defaultdict(int)`'s `d[k] += n` is `bump`.
* `merge_vocab` builds the pattern `re.escape(' '.join(pair))` wrapped in the
  lookarounds `(?<!\S)` and `(?!\S)`.  Since the joined pair text is escaped,
  it matches literally; the lookarounds test the characters of the *original*
  string around the match.  `subGo` implements `re.sub` of such a pattern:
  it scans left to right, keeps the boundary state "the previous original
  character is whitespace or absent", and on a match emits the replacement
  and resumes after the matched text.  `\s` is the set of code points Python's
  `re` treats as whitespace for `str` patterns (`pyspace`).
  The replacement text `''.join(pair)` is *not* literal in Python: `re.sub`
  parses it as a replacement template, eagerly, before scanning (so a bad
  template raises `re.error` even when nothing matches), expanding `\\`,
  `\n`, octal escapes and group references; `tmplEsc`/`parseTmpl` mirror
  CPython's `re._parser.parse_template` for a pattern with no capturing
  groups, and `renderTmpl` renders the parsed template (the pattern is an
  exact literal, so a group-0 reference always renders to the bigram text).
  When no symbol of the pair contains a backslash the expansion is the
  identity and the replacement is the plain concatenation (`mergeKeyLit`).
  The only patterns for which the escaped bigram is empty come from
  `pair = []` or `pair = ("",)`, and for those the replacement template is
  empty as well, so Python's zero-width substitution returns the input
  unchanged; `subMain` returns the input unchanged there.
* `tokenize_word` compiles `re.escape(token.replace('.', '[.]'))`: every
  character of `token.replace('.', '[.]')` is escaped, so the compiled
  pattern matches that text *literally* (`replaceDots`).  `re.finditer` of a
  nonempty literal yields the non-overlapping leftmost match positions
  (`findGo`); for an empty pattern it matches at every position `0..len`.
  Python slices `s[a:b]` clamp out-of-range bounds (`pySlice`).
-/

set_option maxHeartbeats 1600000

/-- Code points matched by `\s` in a Python 3 `str` regex
(`Py_UNICODE_ISSPACE`). -/
def pyspace (c : Char) : Bool :=
  ([0x09, 0x0A, 0x0B, 0x0C, 0x0D, 0x1C, 0x1D, 0x1E, 0x1F, 0x20,
    0x85, 0xA0, 0x1680, 0x2000, 0x2001, 0x2002, 0x2003, 0x2004, 0x2005,
    0x2006, 0x2007, 0x2008, 0x2009, 0x200A, 0x2028, 0x2029, 0x202F,
    0x205F, 0x3000] : List Nat).contains c.toNat

/-- Literal-text match: does `p` occur at the very start of `s`?
(The compiled patterns are `re.escape`d, hence literal.) -/
def litPre : List Char → List Char → Bool
  | [], _ => true
  | _ :: _, [] => false
  | p :: ps, c :: cs => p = c && litPre ps cs

/-- Lookahead `(?!\S)`: succeeds at end of input or when the next original
character is whitespace. -/
def aheadOk : List Char → Bool
  | [] => true
  | c :: _ => pyspace c

/-- Accumulator worker for Python `str.split()`: maximal runs of
non-whitespace characters, separators discarded, no empty chunks. -/
def splitAcc (cur : List Char) : List Char → List (List Char)
  | [] => if cur.isEmpty then [] else [cur.reverse]
  | c :: rest =>
    if pyspace c then
      if cur.isEmpty then splitAcc [] rest else cur.reverse :: splitAcc [] rest
    else splitAcc (c :: cur) rest

/-- Python `word.split()` (split on whitespace runs, dropping empties). -/
def pySplit (s : String) : List String :=
  (splitAcc [] s.data).map String.mk

/-- Python `' '.join` on character lists. -/
def joinSp : List (List Char) → List Char
  | [] => []
  | [x] => x
  | x :: y :: rest => x ++ ' ' :: joinSp (y :: rest)

/-- Python `' '.join` on strings. -/
def joinS (ss : List String) : String :=
  String.mk (joinSp (ss.map String.data))

/-- Worker for `re.sub` of the pattern `(?<!\S)LITERAL(?!\S)` where
`LITERAL = p₀ :: ps`.  The `Bool` argument is the state of the lookbehind
`(?<!\S)` at the current position of the *original* string: `true` at the
start of the string and right after a whitespace character. -/
def subGo (p₀ : Char) (ps rep : List Char) : Bool → List Char → List Char
  | _, [] => []
  | bnd, c :: rest =>
    if bnd && litPre (p₀ :: ps) (c :: rest) && aheadOk (rest.drop ps.length) then
      rep ++ subGo p₀ ps rep (pyspace ((p₀ :: ps).getLastD ' ')) (rest.drop ps.length)
    else
      c :: subGo p₀ ps rep (pyspace c) rest
termination_by _ s => s.length
decreasing_by
  · simp only [List.length_drop, List.length_cons]; omega
  · simp only [List.length_cons]; omega

/-- `re.sub(r'(?<!\S)' + re.escape(pat) + r'(?!\S)', rep, s)` for a possibly
empty escaped text `pat`, starting with the given lookbehind state.  When
`pat` is empty the only callers also pass an empty `rep`, for which Python's
zero-width substitution is the identity. -/
def subW (pat rep : List Char) (bnd : Bool) (s : List Char) : List Char :=
  match pat with
  | [] => s
  | p₀ :: ps => subGo p₀ ps rep bnd s

/-- Whole-string substitution: the lookbehind holds at position 0. -/
def subMain (pat rep s : List Char) : List Char :=
  subW pat rep true s

/-- Python `d[k] = v` on an insertion-ordered association list. -/
def dictInsert (k : String) (v : Nat) : List (String × Nat) → List (String × Nat)
  | [] => [(k, v)]
  | kv :: rest => if kv.1 = k then (k, v) :: rest else kv :: dictInsert k v rest

/-- Python `defaultdict(int)`'s `d[k] += n`. -/
def bump {α : Type} [DecidableEq α] (k : α) (n : Nat) :
    List (α × Nat) → List (α × Nat)
  | [] => [(k, n)]
  | kv :: rest => if kv.1 = k then (k, kv.2 + n) :: rest else kv :: bump k n rest

/-- Membership lookup in an association list (Python `k in d` / `d[k]`). -/
def alookup {α : Type} [DecidableEq α] (k : α) : List (α × Nat) → Option Nat
  | [] => none
  | kv :: rest => if kv.1 = k then some kv.2 else alookup k rest

/-- Lookup defaulting to 0 (the value a `defaultdict(int)` would report). -/
def alookup0 {α : Type} [DecidableEq α] (k : α) (d : List (α × Nat)) : Nat :=
  (alookup k d).getD 0

/-- Adjacent index pairs `(symbols[i], symbols[i+1])` of `get_stats`. -/
def adjPairs (l : List String) : List (String × String) :=
  l.zip l.tail

/-- Source function `get_stats(vocab)`: for every word, add the word's
frequency to every adjacent symbol pair of `word.split()`. -/
def get_stats (vocab : List (String × Nat)) : List ((String × String) × Nat) :=
  vocab.foldl
    (fun acc wf => (adjPairs (pySplit wf.1)).foldl (fun a p => bump p wf.2 a) acc)
    []

/-- Pieces of a parsed `re.sub` replacement template: literal characters
and references to group 0, the whole match.  The patterns `merge_vocab`
compiles have no capturing groups, so 0 is the only group a template can
validly reference. -/
inductive TPiece : Type
  | ch (c : Char)
  | grp0
deriving DecidableEq

/-- Octal digit test of the template parser. -/
def isOctDigit (c : Char) : Bool :=
  '0' ≤ c && c ≤ '7'

/-- Value of a run of octal digits. -/
def octVal (ds : List Char) : Nat :=
  ds.foldl (fun a c => a * 8 + (c.toNat - 48)) 0

/-- Value of a run of decimal digits. -/
def decVal (ds : List Char) : Nat :=
  ds.foldl (fun a c => a * 10 + (c.toNat - 48)) 0

/-- One escape sequence of a `re.sub` replacement template, mirroring
CPython's `re._parser.parse_template` for a `str` template against a
pattern with zero capturing groups.  The input is the character list after
the backslash; the result is the emitted pieces and the number of input
characters consumed, or `none` where Python raises: a lone trailing
backslash, a numeric group reference `\1`–`\99` (the pattern has no
groups), a three-digit octal escape above `0o377`, `\g` without a
well-formed `<…>` naming group 0 (named groups do not exist, so an
identifier name raises, as does any nonzero number; numeric names are
modelled as ASCII-decimal digit runs), and `\letter` for a letter outside
`abfnrtv`.  An escaped non-letter such as `\&` keeps both characters. -/
def tmplEsc : List Char → Option (List TPiece × Nat)
  | [] => none
  | 'g' :: rest =>
    match rest with
    | '<' :: rest' =>
      let name := rest'.takeWhile (fun c => c ≠ '>')
      match rest'.drop name.length with
      | '>' :: _ =>
        if name ≠ [] && name.all Char.isDigit && decVal name = 0 then
          some ([.grp0], name.length + 3)
        else none
      | _ => none
    | _ => none
  | c :: rest =>
    if c = '0' then
      let ds := (rest.take 2).takeWhile isOctDigit
      some ([.ch (Char.ofNat (octVal ('0' :: ds)))], 1 + ds.length)
    else if c.isDigit then
      match rest with
      | d2 :: rest2 =>
        if d2.isDigit then
          if isOctDigit c && isOctDigit d2 then
            match rest2 with
            | d3 :: _ =>
              if isOctDigit d3 then
                if octVal [c, d2, d3] ≤ 255 then
                  some ([.ch (Char.ofNat (octVal [c, d2, d3]))], 3)
                else none
              else none
            | [] => none
          else none
        else none
      | [] => none
    else if c = 'a' then some ([.ch (Char.ofNat 7)], 1)
    else if c = 'b' then some ([.ch (Char.ofNat 8)], 1)
    else if c = 'f' then some ([.ch (Char.ofNat 12)], 1)
    else if c = 'n' then some ([.ch (Char.ofNat 10)], 1)
    else if c = 'r' then some ([.ch (Char.ofNat 13)], 1)
    else if c = 't' then some ([.ch (Char.ofNat 9)], 1)
    else if c = 'v' then some ([.ch (Char.ofNat 11)], 1)
    else if c = '\\' then some ([.ch '\\'], 1)
    else if c.isAlpha then none
    else some ([.ch '\\', .ch c], 1)

/-- Parse a `re.sub` replacement template (CPython `parse_template` for a
pattern with no capturing groups).  Python compiles the template eagerly,
before scanning for matches, so a bad template raises even when nothing
matches — modelled by `none`. -/
def parseTmpl : List Char → Option (List TPiece)
  | [] => some []
  | c :: rest =>
    if c = '\\' then
      match tmplEsc rest with
      | none => none
      | some (ps, n) =>
        match parseTmpl (rest.drop n) with
        | none => none
        | some t => some (ps ++ t)
    else
      match parseTmpl rest with
      | none => none
      | some t => some (.ch c :: t)
termination_by l => l.length
decreasing_by
  · simp only [List.length_drop, List.length_cons]; omega
  · simp only [List.length_cons]; omega

/-- Render a parsed template, substituting the matched text `m` for group-0
references.  `merge_vocab`'s pattern is an exact literal (the escaped
bigram), so every match is that literal and the rendered replacement is one
fixed character list. -/
def renderTmpl (m : List Char) (t : List TPiece) : List Char :=
  (t.map (fun p => match p with | .ch c => [c] | .grp0 => m)).flatten

/-- Replacement text used by `merge_vocab`: `''.join(pair)` parsed as a
`re.sub` replacement template and rendered against the bigram literal.
`none` models the exception Python raises while compiling a bad template
(raised eagerly, before any match is attempted). -/
def mergeRepl (pair : List String) : Option (List Char) :=
  (parseTmpl ((pair.map String.data).flatten)).map
    (renderTmpl (joinSp (pair.map String.data)))

/-- Key rewriting of one word inside `merge_vocab`, given the rendered
replacement text `rep`: `p.sub(repl, word)` for
`p = re.compile(r'(?<!\S)' + re.escape(' '.join(pair)) + r'(?!\S)')`. -/
def mergeKeyE (pair : List String) (rep : List Char) (w : String) : String :=
  String.mk (subMain (joinSp (pair.map String.data)) rep w.data)

/-- Merged key in the common case where the template expansion of
`''.join(pair)` is the identity — in particular whenever no symbol of the
pair contains a backslash: the bigram is replaced by the plain
concatenation of the pair. -/
def mergeKeyLit (pair : List String) (w : String) : String :=
  mergeKeyE pair ((pair.map String.data)).flatten w

/-- Source function `merge_vocab(pair, v_in)`: rebuild the table, rewriting
each word's key through the bigram substitution with the template-expanded
replacement; `v_out[w_out] = v_in[word]` overwrites on key collision.
Returns `none` when Python's eager template compilation of the replacement
raises. -/
def merge_vocab (pair : List String) (v_in : List (String × Nat)) :
    Option (List (String × Nat)) :=
  match mergeRepl pair with
  | none => none
  | some rep =>
    some (v_in.foldl (fun acc wf => dictInsert (mergeKeyE pair rep wf.1) wf.2 acc) [])

/-- Source function `get_tokens(vocab)`: add each word's frequency to each of
its symbols. -/
def get_tokens (vocab : List (String × Nat)) : List (String × Nat) :=
  vocab.foldl
    (fun acc wf => (pySplit wf.1).foldl (fun a t => bump t wf.2 a) acc)
    []

/-- Source function `measure_token_length(token)`:
`len(token[:-4]) + 1` when `token[-4:] == '</w>'`, else `len(token)`.
Python's negative slices clamp, exactly as truncated `Nat` subtraction does. -/
def measure_token_length (t : String) : Nat :=
  if String.mk (t.data.drop (t.data.length - 4)) = "</w>" then
    (t.data.take (t.data.length - 4)).length + 1
  else t.data.length

/-- Text matched by `re.escape(token.replace('.', '[.]'))`: the escape makes
every character literal, so the compiled pattern matches the *replaced* text
(each `'.'` of the token having become the three characters `[.]`). -/
def replaceDots (t : String) : List Char :=
  (t.data.map (fun c => if c = '.' then ['[', '.', ']'] else [c])).flatten

/-- Worker for `re.finditer` of a nonempty literal `l₀ :: ls`: start
positions of the non-overlapping leftmost matches. -/
def findGo (l₀ : Char) (ls : List Char) : List Char → Nat → List Nat
  | [], _ => []
  | c :: rest, pos =>
    if litPre (l₀ :: ls) (c :: rest) then
      pos :: findGo l₀ ls (rest.drop ls.length) (pos + (ls.length + 1))
    else findGo l₀ ls rest (pos + 1)
termination_by s _ => s.length
decreasing_by
  · simp only [List.length_drop, List.length_cons]; omega
  · simp only [List.length_cons]; omega

/-- Match start positions of `re.finditer(lit, s)` for a literal pattern;
an empty pattern matches (zero-width) at every position `0 .. len`. -/
def findMatches (lit s : List Char) : List Nat :=
  match lit with
  | [] => List.range (s.length + 1)
  | l₀ :: ls => findGo l₀ ls s 0

/-- Python pySlice `s[a:b]` (out-of-range bounds clamp). -/
def pySlice (s : List Char) (a b : Nat) : List Char :=
  (s.take b).drop a

mutual

/-- Source function `tokenize_word(string, sorted_tokens, unknown_token)`. -/
def tokenize_word (string : String) (sorted_tokens : List String)
    (unknown_token : String) : List String :=
  if string = "" then []
  else
    match sorted_tokens with
    | [] => [unknown_token]
    | t :: rest => tryTokens string (t :: rest) unknown_token
termination_by (sorted_tokens.length, 1, 0)

/-- The `for i in range(len(sorted_tokens))` loop of `tokenize_word`: try
each token in priority order; `continue` when it has no match, otherwise
process all its matches and `break`. -/
def tryTokens (string : String) (toks : List String) (unk : String) :
    List String :=
  match toks with
  | [] => []
  | token :: rest =>
    let starts := findMatches (replaceDots token) string.data
    if starts = [] then tryTokens string rest unk
    else emitMatches string token rest unk starts 0
termination_by (toks.length, 0, 0)

/-- The inner loop over `substring_end_positions`: tokenize the gap before
each match with the remaining lower-priority tokens, emit the matched token,
and advance by `len(token)`; finally tokenize the remaining substring. -/
def emitMatches (string token : String) (rest : List String) (unk : String)
    (ends : List Nat) (start : Nat) : List String :=
  match ends with
  | [] => tokenize_word (String.mk (pySlice string.data start string.data.length)) rest unk
  | e :: es =>
    tokenize_word (String.mk (pySlice string.data start e)) rest unk
      ++ token :: emitMatches string token rest unk es (e + token.data.length)
termination_by (rest.length, 2, ends.length)

end

/-- Structural (symbol-sequence) view of one merge step, used to state what
the bigram substitution does on well-formed words: fuse each leftmost
non-overlapping adjacent occurrence of `(a, b)` into the single symbol
`a ++ b`.  This is the specification's reading of `merge_vocab`; the
theorems below compare it with the string/pattern implementation. -/
def mergePairs (a b : String) : List String → List String
  | x :: y :: rest =>
    if x = a ∧ y = b then (a ++ b) :: mergePairs a b rest
    else x :: mergePairs a b (y :: rest)
  | l => l

/-- Specification-side `mergeVocabulary`: rebuild the table structurally,
fusing adjacent whole-symbol occurrences of the pair in each word's symbol
sequence. -/
def mergeVocabSpec (a b : String) (tbl : List (String × Nat)) :
    List (String × Nat) :=
  tbl.foldl (fun acc wf => dictInsert (joinS (mergePairs a b (pySplit wf.1))) wf.2 acc) []

/-- Well-formed symbol: nonempty and free of Python whitespace. -/
def wfSym (s : String) : Prop :=
  s ≠ "" ∧ ∀ c ∈ s.data, pyspace c = false

/-- Well-formed word key: the single-space join of its own whitespace split
(equivalently, a `' '.join` of nonempty whitespace-free symbols — the
`WordFrequencyTable` key invariant). -/
def wfWord (w : String) : Prop :=
  w = joinS (pySplit w)

/-- Well-formed word-frequency table: every key is a well-formed word. -/
def wfTable (tbl : List (String × Nat)) : Prop :=
  ∀ p ∈ tbl, wfWord p.1

/-- Whitespace removal (`despace w` is the word with all whitespace
characters deleted). -/
def despace (w : String) : String :=
  String.mk (w.data.filter (fun c => !pyspace c))

/-- Character-list version of the structural one-step merge. -/
def mergePairsL (a b : List Char) : List (List Char) → List (List Char)
  | x :: y :: rest =>
    if x = a ∧ y = b then (a ++ b) :: mergePairsL a b rest
    else x :: mergePairsL a b (y :: rest)
  | l => l

/-- Occurrence count of an element in a list. -/
def lcount {α : Type} [DecidableEq α] (x : α) : List α → Nat
  | [] => 0
  | y :: l => lcount x l + if y = x then 1 else 0

instance : Decidable (wfSym s) := by unfold wfSym; infer_instance
instance : Decidable (wfWord w) := by unfold wfWord; infer_instance
instance : Decidable (wfTable tbl) := by unfold wfTable; infer_instance

/-! ### Basic facts about literal matching and the whitespace class -/

theorem litPre_iff (p : List Char) : ∀ s, litPre p s = true ↔ ∃ t, s = p ++ t := by
  induction p with
  | nil => intro s; simp [litPre]
  | cons a p ih =>
    intro s
    cases s with
    | nil => simp [litPre]
    | cons c cs =>
      simp only [litPre, Bool.and_eq_true, decide_eq_true_eq, ih, List.cons_append,
        List.cons.injEq]
      constructor
      · rintro ⟨rfl, t, rfl⟩; exact ⟨t, rfl, rfl⟩
      · rintro ⟨t, rfl, rfl⟩; exact ⟨rfl, t, rfl⟩

theorem litPre_append (p t : List Char) : litPre p (p ++ t) = true :=
  (litPre_iff p _).2 ⟨t, rfl⟩

theorem litPre_mem {p s : List Char} (h : litPre p s = true) {a : Char}
    (ha : a ∈ p) : a ∈ s := by
  obtain ⟨t, rfl⟩ := (litPre_iff p s).1 h
  exact List.mem_append_left _ ha

theorem pyspace_space : pyspace ' ' = true := by decide

/-! ### Step lemmas for the lookaround substitution scan -/

theorem subW_mt (pat rep : List Char) (bnd : Bool) : subW pat rep bnd [] = [] := by
  cases pat <;> simp [subW, subGo]

theorem subW_cons (pat rep : List Char) (hne : pat ≠ []) (bnd : Bool)
    (c : Char) (rest : List Char) :
    subW pat rep bnd (c :: rest) =
      if bnd && litPre pat (c :: rest) && aheadOk ((c :: rest).drop pat.length) then
        rep ++ subW pat rep (pyspace (pat.getLastD ' ')) ((c :: rest).drop pat.length)
      else c :: subW pat rep (pyspace c) rest := by
  cases pat with
  | nil => exact absurd rfl hne
  | cons p₀ ps =>
    simp only [subW, subGo, List.length_cons, List.drop_succ_cons]

theorem subW_match (pat rep : List Char) (hne : pat ≠ []) (s : List Char)
    (hs : s ≠ []) (hpre : litPre pat s = true)
    (hahead : aheadOk (s.drop pat.length) = true) :
    subW pat rep true s =
      rep ++ subW pat rep (pyspace (pat.getLastD ' ')) (s.drop pat.length) := by
  cases s with
  | nil => exact absurd rfl hs
  | cons c rest =>
    rw [subW_cons pat rep hne]
    simp [hpre, hahead]

theorem subW_skip (pat rep : List Char) (bnd : Bool) (c : Char) (rest : List Char)
    (h : ¬(bnd = true ∧ litPre pat (c :: rest) = true ∧
        aheadOk ((c :: rest).drop pat.length) = true)) :
    subW pat rep bnd (c :: rest) = c :: subW pat rep (pyspace c) rest := by
  cases pat with
  | nil => simp [subW]
  | cons p₀ ps =>
    rw [subW_cons _ rep (by simp)]
    rw [if_neg]
    simp only [Bool.and_eq_true]
    rintro ⟨⟨h1, h2⟩, h3⟩
    exact h ⟨h1, h2, h3⟩

theorem subW_run (pat rep : List Char) (u : List Char)
    (hu : ∀ c ∈ u, pyspace c = false) :
    ∀ t, subW pat rep false (u ++ t) = u ++ subW pat rep false t := by
  induction u with
  | nil => intro t; simp
  | cons c u' ih =>
    intro t
    have hstep := subW_skip pat rep false c (u' ++ t) (by rintro ⟨h, -⟩; cases h)
    rw [List.cons_append, hstep, hu c (by simp), ih (fun d hd => hu d (by simp [hd]))]
    simp

theorem subW_space (pat rep : List Char) (t : List Char) :
    subW pat rep false (' ' :: t) = ' ' :: subW pat rep true t := by
  rw [subW_skip pat rep false ' ' t (by rintro ⟨h, -⟩; cases h), pyspace_space]

theorem subW_nomatch_all (pat rep : List Char) (hsp : ' ' ∈ pat) :
    ∀ (v : List Char), (∀ c ∈ v, pyspace c = false) → ∀ bnd, subW pat rep bnd v = v := by
  intro v
  induction v with
  | nil => intro _ bnd; exact subW_mt pat rep bnd
  | cons c cs ih =>
    intro hv bnd
    have hnm : ¬(bnd = true ∧ litPre pat (c :: cs) = true ∧
        aheadOk ((c :: cs).drop pat.length) = true) := by
      rintro ⟨-, hpre, -⟩
      have := hv ' ' (litPre_mem hpre hsp)
      rw [pyspace_space] at this
      cases this
    rw [subW_skip pat rep bnd c cs hnm, ih (fun d hd => hv d (by simp [hd])) _]

/-! ### Alignment of the escaped bigram with symbol boundaries -/

theorem pre_align (a : List Char) (ha : ∀ c ∈ a, pyspace c = false) :
    ∀ (x : List Char), (∀ c ∈ x, pyspace c = false) →
    ∀ (u v : List Char),
    (litPre (a ++ ' ' :: u) (x ++ ' ' :: v) = true ↔ x = a ∧ litPre u v = true) := by
  induction a with
  | nil =>
    intro x hx u v
    cases x with
    | nil => simp [litPre]
    | cons c x' =>
      have : pyspace c = false := hx c (by simp)
      simp only [List.nil_append, List.cons_append, litPre, Bool.and_eq_true,
        decide_eq_true_eq]
      constructor
      · rintro ⟨h, -⟩; rw [← h, pyspace_space] at this; cases this
      · rintro ⟨h, -⟩; cases h
  | cons d a' ih =>
    intro x hx u v
    cases x with
    | nil =>
      have : pyspace d = false := ha d (by simp)
      simp only [List.cons_append, List.nil_append, litPre, Bool.and_eq_true,
        decide_eq_true_eq]
      constructor
      · rintro ⟨h, -⟩; rw [h, pyspace_space] at this; cases this
      · rintro ⟨h, -⟩; cases h
    | cons c x' =>
      simp only [List.cons_append, litPre, Bool.and_eq_true, decide_eq_true_eq,
        List.append_eq]
      rw [ih (fun e he => ha e (by simp [he])) x' (fun e he => hx e (by simp [he])) u v]
      constructor
      · rintro ⟨rfl, rfl, h⟩; exact ⟨rfl, h⟩
      · rintro ⟨h, h2⟩
        injection h with h3 h4
        exact ⟨h3.symm, h4, h2⟩

theorem suffix_align (b : List Char) (hb : ∀ c ∈ b, pyspace c = false) :
    ∀ (y t : List Char), (∀ c ∈ y, pyspace c = false) →
    (t = [] ∨ ∃ t', t = ' ' :: t') →
    litPre b (y ++ t) = true →
    aheadOk ((y ++ t).drop b.length) = true →
    b = y := by
  induction b with
  | nil =>
    intro y t hy _ _ hahead
    cases y with
    | nil => rfl
    | cons c y' =>
      simp only [List.length_nil, List.drop_zero, List.cons_append, aheadOk] at hahead
      rw [hy c (by simp)] at hahead
      cases hahead
  | cons d b' ih =>
    intro y t hy ht hpre hahead
    cases y with
    | nil =>
      exfalso
      rcases ht with rfl | ⟨t', rfl⟩
      · simp [litPre] at hpre
      · simp only [List.nil_append, litPre, Bool.and_eq_true, decide_eq_true_eq] at hpre
        have := hb d (by simp)
        rw [hpre.1, pyspace_space] at this
        cases this
    | cons c y' =>
      simp only [List.cons_append, litPre, Bool.and_eq_true, decide_eq_true_eq] at hpre
      simp only [List.cons_append, List.length_cons, List.drop_succ_cons] at hahead
      have := ih (fun e he => hb e (by simp [he])) y' t
        (fun e he => hy e (by simp [he])) ht hpre.2 hahead
      rw [hpre.1, this]

/-! ### Splitting on whitespace versus joining with spaces -/

theorem splitAcc_run (u : List Char) (hu : ∀ c ∈ u, pyspace c = false) :
    ∀ (acc t : List Char), splitAcc acc (u ++ t) = splitAcc (u.reverse ++ acc) t := by
  induction u with
  | nil => intro acc t; simp
  | cons c u' ih =>
    intro acc t
    rw [List.cons_append]
    show splitAcc acc (c :: (u' ++ t)) = _
    rw [splitAcc, hu c (by simp)]
    simp only [Bool.false_eq_true, if_false]
    rw [ih (fun d hd => hu d (by simp [hd])) (c :: acc) t]
    simp

theorem splitAcc_join (ss : List (List Char))
    (hss : ∀ x ∈ ss, x ≠ [] ∧ ∀ c ∈ x, pyspace c = false) :
    splitAcc [] (joinSp ss) = ss := by
  induction ss with
  | nil => simp [joinSp, splitAcc]
  | cons x tail ih =>
    cases tail with
    | nil =>
      obtain ⟨hx, hxs⟩ := hss x (by simp)
      show splitAcc [] (joinSp [x]) = [x]
      rw [joinSp, ← List.append_nil x, splitAcc_run x hxs [] []]
      simp [splitAcc, hx]
    | cons y rest =>
      obtain ⟨hx, hxs⟩ := hss x (by simp)
      show splitAcc [] (x ++ ' ' :: joinSp (y :: rest)) = x :: y :: rest
      rw [splitAcc_run x hxs [] (' ' :: joinSp (y :: rest))]
      rw [splitAcc, pyspace_space]
      have hxne : (x.reverse ++ []).isEmpty = false := by
        simp [List.isEmpty_iff, hx]
      simp only [hxne, Bool.false_eq_true, if_false, if_true]
      rw [ih (fun z hz => hss z (by simp [hz]))]
      simp [hx]

theorem splitAcc_wf (t : List Char) :
    ∀ (acc : List Char), (∀ c ∈ acc, pyspace c = false) →
    ∀ x ∈ splitAcc acc t, x ≠ [] ∧ ∀ c ∈ x, pyspace c = false := by
  induction t with
  | nil =>
    intro acc hacc x hx
    by_cases h : acc.isEmpty
    · simp [splitAcc, h] at hx
    · simp only [splitAcc, h, Bool.false_eq_true, if_false, List.mem_singleton] at hx
      subst hx
      refine ⟨?_, fun c hc => hacc c (List.mem_reverse.1 hc)⟩
      simpa [List.isEmpty_iff] using h
  | cons c rest ih =>
    intro acc hacc x hx
    by_cases hc : pyspace c = true
    · by_cases hacc0 : acc.isEmpty
      · rw [splitAcc, hc] at hx
        simp only [hacc0, if_true] at hx
        exact ih [] (by simp) x hx
      · rw [splitAcc, hc] at hx
        simp only [hacc0, Bool.false_eq_true, if_false, if_true, List.mem_cons] at hx
        rcases hx with rfl | hx
        · refine ⟨?_, fun d hd => hacc d (List.mem_reverse.1 hd)⟩
          simpa [List.isEmpty_iff] using hacc0
        · exact ih [] (by simp) x hx
    · have hcf : pyspace c = false := by simpa using hc
      rw [splitAcc, hcf] at hx
      simp only [Bool.false_eq_true, if_false] at hx
      refine ih (c :: acc) ?_ x hx
      intro d hd
      rcases List.mem_cons.1 hd with rfl | hd
      · exact hcf
      · exact hacc d hd

theorem data_mk (l : List Char) : (String.mk l).data = l := rfl

theorem mk_data (s : String) : String.mk s.data = s := rfl

theorem str_ext {s t : String} (h : s.data = t.data) : s = t := by
  cases s; cases t; exact congrArg String.mk h

/-- Symbols produced by `str.split()` are nonempty and whitespace-free. -/
theorem pySplit_wf (w : String) :
    ∀ s ∈ pySplit w, s ≠ "" ∧ ∀ c ∈ s.data, pyspace c = false := by
  intro s hs
  obtain ⟨x, hx, rfl⟩ := List.mem_map.1 hs
  obtain ⟨hne, hsp⟩ := splitAcc_wf w.data [] (by simp) x hx
  refine ⟨?_, by simpa [data_mk] using hsp⟩
  intro h
  exact hne (by simpa using congrArg String.data h)

/-- Splitting a space-join of nonempty whitespace-free symbols recovers them. -/
theorem pySplit_joinS (ss : List String)
    (hss : ∀ s ∈ ss, s ≠ "" ∧ ∀ c ∈ s.data, pyspace c = false) :
    pySplit (joinS ss) = ss := by
  unfold pySplit joinS
  rw [data_mk, splitAcc_join (ss.map String.data) ?wf]
  · simp only [List.map_map]
    have hid : (String.mk ∘ String.data) = id := funext fun s => rfl
    rw [hid, List.map_id]
  case wf =>
    intro x hx
    obtain ⟨s, hs, rfl⟩ := List.mem_map.1 hx
    obtain ⟨hne, hsp⟩ := hss s hs
    constructor
    · intro h; exact hne (str_ext (by simpa using h))
    · exact hsp

theorem wfWord_joinS (ss : List String)
    (hss : ∀ s ∈ ss, s ≠ "" ∧ ∀ c ∈ s.data, pyspace c = false) :
    wfWord (joinS ss) := by
  unfold wfWord
  rw [pySplit_joinS ss hss]

/-- A well-formed word is the space-join of its own well-formed split. -/
theorem wfWord_decomp {w : String} (h : wfWord w) :
    w = joinS (pySplit w) ∧ ∀ s ∈ pySplit w, s ≠ "" ∧ ∀ c ∈ s.data, pyspace c = false :=
  ⟨h, pySplit_wf w⟩

/-! ### The substitution acts structurally on well-formed words -/

theorem mergePairsL_ne_nil (a b : List Char) (l : List (List Char)) (hl : l ≠ []) :
    mergePairsL a b l ≠ [] := by
  match l with
  | [x] => simp [mergePairsL]
  | x :: y :: rest =>
    rw [mergePairsL]
    split <;> simp

theorem joinSp_cons (z : List Char) (zs : List (List Char)) (h : zs ≠ []) :
    joinSp (z :: zs) = z ++ ' ' :: joinSp zs := by
  cases zs with
  | nil => exact absurd rfl h
  | cons w ws => rfl

theorem getLastD_append_ne (l₂ : List Char) (h : l₂ ≠ []) :
    ∀ (l₁ : List Char) (d : Char), (l₁ ++ l₂).getLastD d = l₂.getLastD d := by
  intro l₁
  induction l₁ with
  | nil => intro d; rfl
  | cons c l₁' ih =>
    intro d
    cases l₂ with
    | nil => exact absurd rfl h
    | cons e l₂' =>
      rw [List.cons_append, List.getLastD_cons, ih c]
      simp only [List.getLastD_cons]

theorem getLastD_mem (l : List Char) (h : l ≠ []) (d : Char) : l.getLastD d ∈ l := by
  induction l generalizing d with
  | nil => exact absurd rfl h
  | cons c l' ih =>
    cases l' with
    | nil => simp [List.getLastD]
    | cons e l'' =>
      rw [List.getLastD_cons]
      exact List.mem_cons_of_mem _ (ih (by simp) c)

theorem drop_append_plus {α : Type} (l₁ : List α) :
    ∀ (l₂ : List α) (n : Nat), (l₁ ++ l₂).drop (l₁.length + n) = l₂.drop n := by
  induction l₁ with
  | nil => intro l₂ n; simp
  | cons c l₁' ih =>
    intro l₂ n
    rw [List.cons_append, List.length_cons]
    show ((c :: (l₁' ++ l₂)).drop (l₁'.length + 1 + n)) = l₂.drop n
    have : l₁'.length + 1 + n = (l₁'.length + n) + 1 := by omega
    rw [this, List.drop_succ_cons, ih l₂ n]

/-- Core correspondence: on a space-join of nonempty whitespace-free symbols,
the lookaround substitution for the escaped bigram `a b` is exactly the
structural fusion of adjacent symbol pairs `(a, b)`. -/
theorem subW_joinSp (a b : List Char) (ha : a ≠ []) (hb : b ≠ [])
    (hsa : ∀ c ∈ a, pyspace c = false) (hsb : ∀ c ∈ b, pyspace c = false) :
    ∀ (n : Nat) (ss : List (List Char)), ss.length ≤ n →
    (∀ x ∈ ss, x ≠ [] ∧ ∀ c ∈ x, pyspace c = false) →
    subW (a ++ ' ' :: b) (a ++ b) true (joinSp ss) = joinSp (mergePairsL a b ss) := by
  have hpatne : (a ++ ' ' :: b) ≠ [] := by simp
  have hspmem : ' ' ∈ a ++ ' ' :: b := List.mem_append_right _ (List.mem_cons_self _ _)
  have hlast : pyspace ((a ++ ' ' :: b).getLastD ' ') = false := by
    rw [getLastD_append_ne (' ' :: b) (by simp) a ' ', List.getLastD_cons]
    exact hsb _ (getLastD_mem b hb ' ')
  have hpatlen : (a ++ ' ' :: b).length = a.length + (b.length + 1) := by
    simp [List.length_append]
  intro n
  induction n with
  | zero =>
    intro ss hlen _
    rw [List.length_eq_zero.1 (Nat.le_zero.1 hlen)]
    simp [joinSp, mergePairsL, subW_mt]
  | succ n ih =>
    intro ss hlen hss
    match ss with
    | [] => simp [joinSp, mergePairsL, subW_mt]
    | [x] =>
      obtain ⟨hx, hxs⟩ := hss x (by simp)
      show subW _ _ true (joinSp [x]) = joinSp (mergePairsL a b [x])
      rw [show mergePairsL a b [x] = [x] from rfl]
      exact subW_nomatch_all _ _ hspmem x hxs true
    | x :: y :: rest =>
      obtain ⟨hx, hxs⟩ := hss x (by simp)
      obtain ⟨hy, hys⟩ := hss y (by simp)
      have hrest : ∀ z ∈ y :: rest, z ≠ [] ∧ ∀ c ∈ z, pyspace c = false :=
        fun z hz => hss z (by simp [hz])
      -- decompose the tail join as `y ++ t` with `t` empty or starting with a space
      obtain ⟨t, hT, ht⟩ :
          ∃ t, joinSp (y :: rest) = y ++ t ∧ (t = [] ∨ ∃ t', t = ' ' :: t') := by
        cases rest with
        | nil => exact ⟨[], by simp [joinSp], Or.inl rfl⟩
        | cons r rest' =>
          exact ⟨' ' :: joinSp (r :: rest'), by rw [joinSp_cons y _ (by simp)],
            Or.inr ⟨_, rfl⟩⟩
      rw [joinSp_cons x _ (by simp)]
      by_cases hxy : x = a ∧ y = b
      · obtain ⟨rfl, rfl⟩ := hxy
        have hsplit : x ++ ' ' :: joinSp (y :: rest) = (x ++ ' ' :: y) ++ t := by
          rw [hT]; simp
        have hahead : aheadOk (((x ++ ' ' :: y) ++ t).drop (x ++ ' ' :: y).length)
            = true := by
          rw [List.drop_left]
          rcases ht with rfl | ⟨t', rfl⟩
          · rfl
          · simp [aheadOk, pyspace_space]
        rw [hsplit, subW_match _ _ hpatne _ (by simp) (litPre_append _ _) hahead,
          List.drop_left, hlast]
        have hmp : mergePairsL x y (x :: y :: rest) = (x ++ y) :: mergePairsL x y rest := by
          rw [mergePairsL, if_pos ⟨rfl, rfl⟩]
        rw [hmp]
        cases rest with
        | nil =>
          have : t = [] := by
            rcases ht with rfl | ⟨t', rfl⟩
            · rfl
            · rw [show joinSp [y] = y from rfl] at hT
              exact absurd (congrArg List.length hT) (by simp)
          subst this
          simp [subW_mt, joinSp, mergePairsL]
        | cons r rest' =>
          obtain ⟨t', rfl⟩ : ∃ t', t = ' ' :: t' := by
            rcases ht with rfl | h'
            · exfalso
              rw [joinSp_cons y _ (by simp), List.append_nil] at hT
              have := congrArg List.length hT
              simp at this
            · exact h'
          have ht' : t' = joinSp (r :: rest') := by
            rw [joinSp_cons y _ (by simp)] at hT
            have := List.append_cancel_left hT
            exact (List.cons_eq_cons.1 this).2.symm
          rw [subW_space, ht',
            ih (r :: rest') (by simp at hlen ⊢; omega) (fun z hz => hss z (by simp [hz]))]
          rw [joinSp_cons _ _ (mergePairsL_ne_nil x y _ (by simp))]
      · -- no match can start at this symbol boundary
        have hnm : ¬(litPre (a ++ ' ' :: b) (x ++ ' ' :: joinSp (y :: rest)) = true ∧
            aheadOk ((x ++ ' ' :: joinSp (y :: rest)).drop (a ++ ' ' :: b).length)
              = true) := by
          rintro ⟨hpre, hahead⟩
          obtain ⟨rfl, hpre'⟩ := (pre_align a hsa x hxs b (joinSp (y :: rest))).1 hpre
          rw [hpatlen, hT] at hahead
          rw [show x ++ ' ' :: (y ++ t) = x ++ (' ' :: (y ++ t)) from rfl,
            drop_append_plus x (' ' :: (y ++ t)) (b.length + 1),
            show (b.length + 1) = b.length + 1 from rfl] at hahead
          rw [show (' ' :: (y ++ t)).drop (b.length + 1) = (y ++ t).drop b.length from
            List.drop_succ_cons] at hahead
          rw [hT] at hpre'
          have := suffix_align b hsb y t hys ht hpre' hahead
          exact hxy ⟨rfl, this.symm⟩
        obtain ⟨x₀, x'', rfl⟩ : ∃ x₀ x'', x = x₀ :: x'' := by
          cases x with
          | nil => exact absurd rfl hx
          | cons x₀ x'' => exact ⟨x₀, x'', rfl⟩
        rw [List.cons_append,
          subW_skip _ _ true x₀ (x'' ++ ' ' :: joinSp (y :: rest))
            (by rintro ⟨-, h1, h2⟩; exact hnm ⟨by simpa using h1, by simpa using h2⟩),
          hxs x₀ (by simp),
          subW_run _ _ x'' (fun c hc => hxs c (by simp [hc])) _,
          subW_space,
          ih (y :: rest) (by simp at hlen ⊢; omega) hrest]
        rw [show mergePairsL a b ((x₀ :: x'') :: y :: rest)
              = (x₀ :: x'') :: mergePairsL a b (y :: rest) from by
            rw [mergePairsL, if_neg hxy],
          joinSp_cons _ _ (mergePairsL_ne_nil a b _ (by simp))]
        simp

/-! ### String-level consequences of the correspondence -/

theorem data_append (s t : String) : (s ++ t).data = s.data ++ t.data :=
  String.data_append s t

theorem ne_empty_iff_data (s : String) : s ≠ "" ↔ s.data ≠ [] := by
  constructor
  · intro h h'; exact h (str_ext h')
  · intro h h'; exact h (by rw [h'])

theorem mergePairs_data (a b : String) :
    ∀ (n : Nat) (ss : List String), ss.length ≤ n →
    (mergePairs a b ss).map String.data = mergePairsL a.data b.data (ss.map String.data) := by
  intro n
  induction n with
  | zero =>
    intro ss h
    rw [List.length_eq_zero.1 (Nat.le_zero.1 h)]
    rfl
  | succ n ih =>
    intro ss h
    match ss with
    | [] => rfl
    | [x] => rfl
    | x :: y :: rest =>
      by_cases hxy : x = a ∧ y = b
      · rw [mergePairs, if_pos hxy]
        simp only [List.map_cons]
        rw [mergePairsL, if_pos ⟨congrArg String.data hxy.1, congrArg String.data hxy.2⟩]
        rw [ih rest (by simp at h ⊢; omega), data_append]
      · rw [mergePairs, if_neg hxy]
        simp only [List.map_cons]
        rw [mergePairsL, if_neg (by
          rintro ⟨h1, h2⟩
          exact hxy ⟨str_ext h1, str_ext h2⟩)]
        have := ih (y :: rest) (by simp at h ⊢; omega)
        simp only [List.map_cons] at this
        rw [this]

/-- On a well-formed word, `merge_vocab`'s per-word key substitution is
exactly the structural adjacent-pair fusion. -/
theorem mergeKeyLit_joinS (a b : String) (ha : wfSym a) (hb : wfSym b)
    (ss : List String) (hss : ∀ s ∈ ss, s ≠ "" ∧ ∀ c ∈ s.data, pyspace c = false) :
    mergeKeyLit [a, b] (joinS ss) = joinS (mergePairs a b ss) := by
  obtain ⟨hane, hasp'⟩ := ha
  obtain ⟨hbne, hbsp'⟩ := hb
  unfold mergeKeyLit mergeKeyE subMain
  have hpat : joinSp ([a, b].map String.data) = a.data ++ ' ' :: b.data := rfl
  have hrep : ([a, b].map String.data).flatten = a.data ++ b.data := by simp
  rw [hpat, hrep]
  have hdata : (joinS ss).data = joinSp (ss.map String.data) := rfl
  rw [hdata]
  rw [subW_joinSp a.data b.data ((ne_empty_iff_data a).1 hane)
    ((ne_empty_iff_data b).1 hbne) hasp' hbsp' (ss.map String.data).length _
    le_rfl ?wfl]
  · unfold joinS
    rw [← mergePairs_data a b ss.length ss le_rfl]
  case wfl =>
    intro x hx
    obtain ⟨s, hs, rfl⟩ := List.mem_map.1 hx
    obtain ⟨hne, hsp⟩ := hss s hs
    exact ⟨(ne_empty_iff_data s).1 hne, hsp⟩

theorem mergePairs_mem (a b : String) :
    ∀ (n : Nat) (l : List String), l.length ≤ n →
    ∀ z ∈ mergePairs a b l, z ∈ l ∨ z = a ++ b := by
  intro n
  induction n with
  | zero =>
    intro l h
    rw [List.length_eq_zero.1 (Nat.le_zero.1 h)]
    simp [mergePairs]
  | succ n ih =>
    intro l h z hz
    match l with
    | [] => simp [mergePairs] at hz
    | [x] =>
      rw [show mergePairs a b [x] = [x] from rfl] at hz
      exact Or.inl hz
    | x :: y :: rest =>
      by_cases hxy : x = a ∧ y = b
      · rw [mergePairs, if_pos hxy] at hz
        rcases List.mem_cons.1 hz with rfl | hz
        · exact Or.inr rfl
        · rcases ih rest (by simp at h ⊢; omega) z hz with h' | h'
          · exact Or.inl (by simp [h'])
          · exact Or.inr h'
      · rw [mergePairs, if_neg hxy] at hz
        rcases List.mem_cons.1 hz with rfl | hz
        · exact Or.inl (by simp)
        · rcases ih (y :: rest) (by simp at h ⊢; omega) z hz with h' | h'
          · exact Or.inl (by simp [List.mem_cons.1 h'])
          · exact Or.inr h'

theorem mergePairs_wf (a b : String) (ha : wfSym a) (hb : wfSym b)
    (l : List String) (hl : ∀ s ∈ l, s ≠ "" ∧ ∀ c ∈ s.data, pyspace c = false) :
    ∀ z ∈ mergePairs a b l, z ≠ "" ∧ ∀ c ∈ z.data, pyspace c = false := by
  intro z hz
  rcases mergePairs_mem a b l.length l le_rfl z hz with h' | rfl
  · exact hl z h'
  · obtain ⟨hane, hasp⟩ := ha
    obtain ⟨hbne, hbsp⟩ := hb
    constructor
    · rw [ne_empty_iff_data, data_append]
      intro h
      exact (ne_empty_iff_data a).1 hane (List.append_eq_nil.1 h).1
    · intro c hc
      rw [data_append] at hc
      rcases List.mem_append.1 hc with hc | hc
      · exact hasp c hc
      · exact hbsp c hc

theorem mergePairs_ne_nil (a b : String) (l : List String) (hl : l ≠ []) :
    mergePairs a b l ≠ [] := by
  match l with
  | [x] => simp [mergePairs]
  | x :: y :: rest =>
    rw [mergePairs]
    split <;> simp

theorem mergePairs_head (a b y : String) (rest : List String) :
    ∃ z zs, mergePairs a b (y :: rest) = z :: zs ∧ (z = y ∨ z = a ++ b) := by
  cases rest with
  | nil => exact ⟨y, [], rfl, Or.inl rfl⟩
  | cons r rest' =>
    by_cases h : y = a ∧ r = b
    · exact ⟨a ++ b, mergePairs a b rest', by rw [mergePairs, if_pos h], Or.inr rfl⟩
    · exact ⟨y, mergePairs a b (r :: rest'), by rw [mergePairs, if_neg h], Or.inl rfl⟩

theorem append_ne_left (a b : String) (hb : b ≠ "") : a ++ b ≠ a := by
  intro h
  have := congrArg (fun s => s.data.length) h
  simp only [data_append, List.length_append] at this
  have hbd := (ne_empty_iff_data b).1 hb
  have : b.data.length = 0 := by omega
  exact hbd (List.length_eq_zero.1 this)

theorem append_ne_right (a b : String) (ha : a ≠ "") : a ++ b ≠ b := by
  intro h
  have := congrArg (fun s => s.data.length) h
  simp only [data_append, List.length_append] at this
  have had := (ne_empty_iff_data a).1 ha
  have : a.data.length = 0 := by omega
  exact had (List.length_eq_zero.1 this)

theorem adjPairs_cons2 (z w : String) (t : List String) :
    adjPairs (z :: w :: t) = (z, w) :: adjPairs (w :: t) := rfl

/-- After fusing, the pair `(a, b)` no longer occurs adjacently. -/
theorem mergePairs_not_adj (a b : String) (ha : a ≠ "") (hb : b ≠ "") :
    ∀ (n : Nat) (l : List String), l.length ≤ n →
    (a, b) ∉ adjPairs (mergePairs a b l) := by
  intro n
  induction n with
  | zero =>
    intro l h
    rw [List.length_eq_zero.1 (Nat.le_zero.1 h)]
    simp [mergePairs, adjPairs]
  | succ n ih =>
    intro l h
    match l with
    | [] => simp [mergePairs, adjPairs]
    | [x] => simp [mergePairs, adjPairs]
    | x :: y :: rest =>
      by_cases hxy : x = a ∧ y = b
      · rw [mergePairs, if_pos hxy]
        cases hM : mergePairs a b rest with
        | nil => simp [adjPairs]
        | cons z zs =>
          rw [adjPairs_cons2]
          intro hmem
          rcases List.mem_cons.1 hmem with heq | hmem'
          · have : a ++ b = a := (congrArg Prod.fst heq).symm
            exact append_ne_left a b hb this
          · have : (a, b) ∈ adjPairs (mergePairs a b rest) := by rw [hM]; exact hmem'
            exact ih rest (by simp at h ⊢; omega) this
      · rw [mergePairs, if_neg hxy]
        obtain ⟨z, zs, hM, hz⟩ := mergePairs_head a b y rest
        rw [hM, adjPairs_cons2]
        intro hmem
        rcases List.mem_cons.1 hmem with heq | hmem'
        · have hxa : x = a := (congrArg Prod.fst heq).symm
          have hzb : z = b := (congrArg Prod.snd heq).symm
          rcases hz with rfl | rfl
          · exact hxy ⟨hxa, hzb⟩
          · exact append_ne_right a b (hxa ▸ ha) hzb
        · have : (a, b) ∈ adjPairs (mergePairs a b (y :: rest)) := by rw [hM]; exact hmem'
          exact ih (y :: rest) (by simp at h ⊢; omega) this

/-- A word with no adjacent occurrence of the pair is left unchanged. -/
theorem mergePairs_id (a b : String) :
    ∀ (n : Nat) (l : List String), l.length ≤ n →
    (a, b) ∉ adjPairs l → mergePairs a b l = l := by
  intro n
  induction n with
  | zero =>
    intro l h _
    rw [List.length_eq_zero.1 (Nat.le_zero.1 h)]
    rfl
  | succ n ih =>
    intro l h hadj
    match l with
    | [] => rfl
    | [x] => rfl
    | x :: y :: rest =>
      rw [adjPairs_cons2] at hadj
      have hxy : ¬(x = a ∧ y = b) := by
        rintro ⟨rfl, rfl⟩
        exact hadj (List.mem_cons_self _ _)
      rw [mergePairs, if_neg hxy,
        ih (y :: rest) (by simp at h ⊢; omega) (fun hm => hadj (List.mem_cons_of_mem _ hm))]

theorem count_adj_head_ne (a b : String) (hba : b ≠ a) (rest : List String) :
    lcount (a, b) (adjPairs (b :: rest)) = lcount (a, b) (adjPairs rest) := by
  cases rest with
  | nil => rfl
  | cons r rest' =>
    rw [adjPairs_cons2, lcount]
    have : ¬((b, r) = (a, b)) := by
      intro h
      exact hba (congrArg Prod.fst h)
    simp [this]

/-- Every adjacent occurrence of a pair with distinct components is fused,
so the fused symbol occurs at least as often as the pair did. -/
theorem mergePairs_count (a b : String) (hab : a ≠ b) :
    ∀ (n : Nat) (l : List String), l.length ≤ n →
    lcount (a, b) (adjPairs l) ≤ lcount (a ++ b) (mergePairs a b l) := by
  intro n
  induction n with
  | zero =>
    intro l h
    rw [List.length_eq_zero.1 (Nat.le_zero.1 h)]
    exact Nat.le_refl _
  | succ n ih =>
    intro l h
    match l with
    | [] => exact Nat.le_refl _
    | [x] => exact Nat.zero_le _
    | x :: y :: rest =>
      by_cases hxy : x = a ∧ y = b
      · obtain ⟨rfl, rfl⟩ := hxy
        rw [mergePairs, if_pos ⟨rfl, rfl⟩, adjPairs_cons2, lcount,
          count_adj_head_ne x y (Ne.symm hab) rest, lcount]
        have h1 := ih rest (by simp at h ⊢; omega)
        simp only [if_pos rfl]
        omega
      · rw [mergePairs, if_neg hxy, adjPairs_cons2, lcount]
        have h1 := ih (y :: rest) (by simp at h ⊢; omega)
        have h2 : ¬((x, y) = (a, b)) := by
          intro hp
          exact hxy ⟨congrArg Prod.fst hp, congrArg Prod.snd hp⟩
        simp only [h2, if_false, Nat.add_zero]
        calc lcount (a, b) (adjPairs (y :: rest))
            ≤ lcount (a ++ b) (mergePairs a b (y :: rest)) := h1
          _ ≤ lcount (a ++ b) (x :: mergePairs a b (y :: rest)) := by
              rw [lcount]; omega

/-! ### Dictionary and defaultdict accounting -/

theorem alookup_dictInsert (k k' : String) (v : Nat) (d : List (String × Nat)) :
    alookup k' (dictInsert k v d) = if k' = k then some v else alookup k' d := by
  induction d with
  | nil =>
    by_cases h : k' = k
    · subst h; simp [dictInsert, alookup]
    · have h' : ¬ k = k' := fun hh => h hh.symm
      simp [dictInsert, alookup, h, h']
  | cons kv rest ih =>
    by_cases h1 : kv.1 = k
    · rw [dictInsert, if_pos h1]
      by_cases hk : k' = k
      · subst hk; simp [alookup]
      · have h2 : ¬ kv.1 = k' := by rw [h1]; exact fun hh => hk hh.symm
        have h3 : ¬ k = k' := fun hh => hk hh.symm
        simp [alookup, hk, h2, h3]
    · rw [dictInsert, if_neg h1]
      by_cases h2 : kv.1 = k'
      · have h3 : ¬ k' = k := by rw [← h2]; exact fun hh => h1 hh
        simp [alookup, h2, h3]
      · simp [alookup, h2, ih]

theorem dictInsert_mem_self (k : String) (v : Nat) (d : List (String × Nat)) :
    (k, v) ∈ dictInsert k v d := by
  induction d with
  | nil => simp [dictInsert]
  | cons kv rest ih =>
    rw [dictInsert]
    split
    · exact List.mem_cons_self _ _
    · exact List.mem_cons_of_mem _ ih

theorem dictInsert_mem_keep (k : String) (v : Nat) (d : List (String × Nat))
    (kv' : String × Nat) (h : kv' ∈ d) (hne : kv'.1 ≠ k) :
    kv' ∈ dictInsert k v d := by
  induction d with
  | nil => simp at h
  | cons kv rest ih =>
    rw [dictInsert]
    rcases List.mem_cons.1 h with rfl | h'
    · split
      · rename_i hh
        exact absurd hh hne
      · exact List.mem_cons_self _ _
    · split
      · exact List.mem_cons_of_mem _ h'
      · exact List.mem_cons_of_mem _ (ih h')

theorem dictInsert_key_of_mem (k : String) (v : Nat) (d : List (String × Nat))
    (kv' : String × Nat) (h : kv' ∈ dictInsert k v d) : kv'.1 = k ∨ kv' ∈ d := by
  induction d with
  | nil =>
    simp [dictInsert] at h
    exact Or.inl (by rw [h])
  | cons kv rest ih =>
    rw [dictInsert] at h
    split at h
    · rcases List.mem_cons.1 h with rfl | h'
      · exact Or.inl rfl
      · exact Or.inr (List.mem_cons_of_mem _ h')
    · rcases List.mem_cons.1 h with rfl | h'
      · exact Or.inr (List.mem_cons_self _ _)
      · rcases ih h' with h'' | h''
        · exact Or.inl h''
        · exact Or.inr (List.mem_cons_of_mem _ h'')

theorem dictInsert_fresh (k : String) (v : Nat) (d : List (String × Nat))
    (h : k ∉ d.map Prod.fst) : dictInsert k v d = d ++ [(k, v)] := by
  induction d with
  | nil => rfl
  | cons kv rest ih =>
    rw [dictInsert, if_neg (by
      intro hh
      exact h (by simp [← hh])), ih (by
      intro hh
      exact h (by simp [hh]))]
    rfl

/-! ### Folding the table rebuild and the frequency accumulators -/

theorem merge_fold_mem (pair : List String) (tbl : List (String × Nat)) :
    ∀ (acc : List (String × Nat)) (k0 : String),
    ((∃ f', (k0, f') ∈ acc) ∨ ∃ w f, (w, f) ∈ tbl ∧ mergeKeyLit pair w = k0) →
    ∃ f', (k0, f') ∈
      tbl.foldl (fun acc wf => dictInsert (mergeKeyLit pair wf.1) wf.2 acc) acc := by
  induction tbl with
  | nil =>
    rintro acc k0 (h | ⟨w, f, hw, -⟩)
    · exact h
    · simp at hw
  | cons wf₁ tbl' ih =>
    rintro acc k0 (⟨f', hf'⟩ | ⟨w, f, hw, hk⟩)
    · refine ih _ k0 (Or.inl ?_)
      by_cases hk0 : k0 = mergeKeyLit pair wf₁.1
      · exact ⟨wf₁.2, hk0 ▸ dictInsert_mem_self _ _ _⟩
      · exact ⟨f', dictInsert_mem_keep _ _ _ _ hf' hk0⟩
    · rcases List.mem_cons.1 hw with heq | hw'
      · have hw1 : w = wf₁.1 := congrArg Prod.fst heq
        refine ih _ k0 (Or.inl ⟨wf₁.2, ?_⟩)
        rw [← hk, hw1]
        exact dictInsert_mem_self _ _ _
      · exact ih _ k0 (Or.inr ⟨w, f, hw', hk⟩)

theorem renderTmpl_ch (m : List Char) :
    ∀ (t : List Char), renderTmpl m (t.map TPiece.ch) = t := by
  intro t
  induction t with
  | nil => rfl
  | cons c t' ih =>
    show [c] ++ renderTmpl m (t'.map TPiece.ch) = c :: t'
    rw [ih]
    rfl

theorem parseTmpl_no_bs :
    ∀ (t : List Char), '\\' ∉ t → parseTmpl t = some (t.map TPiece.ch) := by
  intro t
  induction t with
  | nil => intro _; simp [parseTmpl]
  | cons c rest ih =>
    intro hbs
    have hc : ¬ c = '\\' := fun h => hbs (by simp [h])
    simp only [parseTmpl]
    rw [if_neg hc, ih (fun h => hbs (List.mem_cons_of_mem _ h))]
    rfl

/-- A backslash-free replacement text is its own template expansion. -/
theorem mergeRepl_no_bs (pair : List String) (hbs : ∀ s ∈ pair, '\\' ∉ s.data) :
    mergeRepl pair = some ((pair.map String.data).flatten) := by
  unfold mergeRepl
  rw [parseTmpl_no_bs _ ?nb]
  · simp only [Option.map_some']
    rw [renderTmpl_ch]
  case nb =>
    intro hmem
    obtain ⟨l, hl, hc⟩ := List.mem_flatten.1 hmem
    obtain ⟨s, hs, rfl⟩ := List.mem_map.1 hl
    exact hbs s hs hc

/-- With a backslash-free pair the template expansion is the identity and
`merge_vocab` is the literal-replacement rebuild of the table. -/
theorem merge_vocab_no_bs (pair : List String) (hbs : ∀ s ∈ pair, '\\' ∉ s.data)
    (v_in : List (String × Nat)) :
    merge_vocab pair v_in =
      some (v_in.foldl (fun acc wf => dictInsert (mergeKeyLit pair wf.1) wf.2 acc) []) := by
  unfold merge_vocab
  rw [mergeRepl_no_bs pair hbs]
  rfl

theorem merge_vocab_mem (pair : List String) (hbs : ∀ s ∈ pair, '\\' ∉ s.data)
    (tbl : List (String × Nat)) (w : String) (f : Nat) (h : (w, f) ∈ tbl) :
    ∃ M, merge_vocab pair tbl = some M ∧ ∃ f', (mergeKeyLit pair w, f') ∈ M :=
  ⟨_, merge_vocab_no_bs pair hbs tbl,
    merge_fold_mem pair tbl [] (mergeKeyLit pair w) (Or.inr ⟨w, f, h, rfl⟩)⟩

theorem merge_fold_keys (pair : List String) (tbl : List (String × Nat)) :
    ∀ (acc : List (String × Nat)) (kv : String × Nat),
    kv ∈ tbl.foldl (fun acc wf => dictInsert (mergeKeyLit pair wf.1) wf.2 acc) acc →
    kv ∈ acc ∨ ∃ w f, (w, f) ∈ tbl ∧ kv.1 = mergeKeyLit pair w := by
  induction tbl with
  | nil => intro acc kv h; exact Or.inl h
  | cons wf₁ tbl' ih =>
    intro acc kv h
    rcases ih _ kv h with h' | ⟨w, f, hw, hk⟩
    · rcases dictInsert_key_of_mem _ _ _ _ h' with hk | hmem
      · exact Or.inr ⟨wf₁.1, wf₁.2, by simp, hk⟩
      · exact Or.inl hmem
    · exact Or.inr ⟨w, f, by simp [hw], hk⟩

theorem merge_vocab_keys (pair : List String) (hbs : ∀ s ∈ pair, '\\' ∉ s.data)
    (tbl M : List (String × Nat)) (hM : merge_vocab pair tbl = some M)
    (kv : String × Nat) (h : kv ∈ M) :
    ∃ w f, (w, f) ∈ tbl ∧ kv.1 = mergeKeyLit pair w := by
  rw [merge_vocab_no_bs pair hbs tbl] at hM
  have hM' := Option.some.inj hM
  rw [← hM'] at h
  rcases merge_fold_keys pair tbl [] kv h with h' | h'
  · simp at h'
  · exact h'

theorem merge_fold_nodup (pair : List String) :
    ∀ (tbl acc : List (String × Nat)),
    (∀ x ∈ tbl, mergeKeyLit pair x.1 ∉ acc.map Prod.fst) →
    (tbl.map (fun wf => mergeKeyLit pair wf.1)).Nodup →
    tbl.foldl (fun acc wf => dictInsert (mergeKeyLit pair wf.1) wf.2 acc) acc =
      acc ++ tbl.map (fun wf => (mergeKeyLit pair wf.1, wf.2)) := by
  intro tbl
  induction tbl with
  | nil => intro acc _ _; simp
  | cons x tbl' ih =>
    intro acc hfresh hnd
    rw [List.map_cons] at hnd
    have hnd1 := (List.nodup_cons.1 hnd).1
    have hnd2 := (List.nodup_cons.1 hnd).2
    have hx : mergeKeyLit pair x.1 ∉ acc.map Prod.fst := hfresh x (by simp)
    show tbl'.foldl _ (dictInsert (mergeKeyLit pair x.1) x.2 acc) = _
    rw [dictInsert_fresh _ _ _ hx]
    rw [ih (acc ++ [(mergeKeyLit pair x.1, x.2)]) ?fresh hnd2]
    · simp
    case fresh =>
      intro y hy
      rw [List.map_append]
      intro hmem
      rcases List.mem_append.1 hmem with hmem | hmem
      · exact hfresh y (by simp [hy]) hmem
      · simp only [List.map_cons, List.map_nil, List.mem_singleton] at hmem
        have hne : mergeKeyLit pair x.1 ≠ mergeKeyLit pair y.1 := by
          intro heq
          exact hnd1 (heq ▸ List.mem_map.2 ⟨y, hy, rfl⟩)
        exact hne (by simpa using hmem.symm)

/-- With pairwise-distinct merged keys, the rebuilt dictionary is exactly the
key-rewritten table, in order. -/
theorem merge_vocab_eq_map (pair : List String) (hbs : ∀ s ∈ pair, '\\' ∉ s.data)
    (tbl : List (String × Nat))
    (hnd : (tbl.map (fun wf => mergeKeyLit pair wf.1)).Nodup) :
    merge_vocab pair tbl = some (tbl.map (fun wf => (mergeKeyLit pair wf.1, wf.2))) := by
  rw [merge_vocab_no_bs pair hbs tbl, merge_fold_nodup pair tbl [] (by simp) hnd]
  simp

theorem alookup_map_nodup (pair : List String) (tbl : List (String × Nat))
    (w : String) (f : Nat) (hmem : (w, f) ∈ tbl)
    (hnd : (tbl.map (fun wf => mergeKeyLit pair wf.1)).Nodup) :
    alookup (mergeKeyLit pair w) (tbl.map (fun wf => (mergeKeyLit pair wf.1, wf.2)))
      = some f := by
  induction tbl with
  | nil => simp at hmem
  | cons x tbl' ih =>
    simp only [List.map_cons, List.nodup_cons] at hnd
    rcases List.mem_cons.1 hmem with heq | hmem'
    · rw [← heq]
      simp [alookup]
    · have hne : ¬ mergeKeyLit pair x.1 = mergeKeyLit pair w := by
        intro hh
        exact hnd.1 (hh ▸ List.mem_map.2 ⟨(w, f), hmem', rfl⟩)
      rw [List.map_cons, alookup, if_neg hne]
      exact ih hmem' hnd.2

theorem alookup0_bump {α : Type} [DecidableEq α] (k k' : α) (n : Nat)
    (d : List (α × Nat)) :
    alookup0 k (bump k' n d) = alookup0 k d + if k' = k then n else 0 := by
  induction d with
  | nil =>
    by_cases h : k' = k
    · subst h; simp [bump, alookup, alookup0]
    · simp [bump, alookup, alookup0, h]
  | cons kv rest ih =>
    by_cases h1 : kv.1 = k'
    · rw [bump, if_pos h1]
      by_cases h2 : k' = k
      · subst h2
        simp [alookup, alookup0, h1]
      · have h3 : ¬ kv.1 = k := by rw [h1]; exact h2
        simp [alookup, alookup0, h2, h3]
    · rw [bump, if_neg h1]
      by_cases h2 : kv.1 = k
      · have h3 : ¬ k' = k := by rw [← h2]; exact fun hh => h1 hh.symm
        simp [alookup, alookup0, h2, h3]
      · simp only [alookup0, alookup, h2, if_false]
        exact ih

theorem alookup_bump_none {α : Type} [DecidableEq α] (k k' : α) (n : Nat)
    (d : List (α × Nat)) :
    alookup k (bump k' n d) = none ↔ alookup k d = none ∧ ¬ k' = k := by
  induction d with
  | nil =>
    by_cases h : k' = k
    · simp [bump, alookup, h]
    · simp [bump, alookup, h]
  | cons kv rest ih =>
    by_cases h1 : kv.1 = k'
    · rw [bump, if_pos h1]
      by_cases h2 : k' = k
      · subst h2; simp [alookup]
      · have h3 : ¬ kv.1 = k := by rw [h1]; exact h2
        simp [alookup, h2, h3]
    · rw [bump, if_neg h1]
      by_cases h2 : kv.1 = k
      · simp [alookup, h2]
      · simp [alookup, h2, ih]

theorem alookup0_bumpList {α : Type} [DecidableEq α] (k : α) (n : Nat) :
    ∀ (items : List α) (d : List (α × Nat)),
    alookup0 k (items.foldl (fun a p => bump p n a) d) =
      alookup0 k d + n * lcount k items := by
  intro items
  induction items with
  | nil => intro d; simp [lcount]
  | cons p items' ih =>
    intro d
    show alookup0 k (items'.foldl (fun a p => bump p n a) (bump p n d)) = _
    rw [ih (bump p n d), alookup0_bump, lcount]
    by_cases h : p = k
    · subst h; simp [Nat.mul_add]; omega
    · simp [h]

theorem alookup_bumpList_none {α : Type} [DecidableEq α] (k : α) (n : Nat) :
    ∀ (items : List α) (d : List (α × Nat)),
    (alookup k (items.foldl (fun a p => bump p n a) d) = none ↔
      alookup k d = none ∧ k ∉ items) := by
  intro items
  induction items with
  | nil => intro d; simp
  | cons p items' ih =>
    intro d
    show (alookup k (items'.foldl (fun a p => bump p n a) (bump p n d)) = none ↔ _)
    rw [ih (bump p n d), alookup_bump_none]
    constructor
    · rintro ⟨⟨h1, h2⟩, h3⟩
      refine ⟨h1, ?_⟩
      simp only [List.mem_cons, not_or]
      exact ⟨fun hh => h2 hh.symm, h3⟩
    · rintro ⟨h1, h2⟩
      simp only [List.mem_cons, not_or] at h2
      exact ⟨⟨h1, fun hh => h2.1 hh.symm⟩, h2.2⟩

theorem alookup0_vocabFold {α : Type} [DecidableEq α] (itemf : String → List α)
    (k : α) :
    ∀ (vocab : List (String × Nat)) (d : List (α × Nat)),
    alookup0 k (vocab.foldl
        (fun acc wf => (itemf wf.1).foldl (fun a p => bump p wf.2 a) acc) d) =
      alookup0 k d + (vocab.map (fun wf => wf.2 * lcount k (itemf wf.1))).sum := by
  intro vocab
  induction vocab with
  | nil => intro d; simp
  | cons wf₁ vocab' ih =>
    intro d
    show alookup0 k (vocab'.foldl _ ((itemf wf₁.1).foldl (fun a p => bump p wf₁.2 a) d)) = _
    rw [ih, alookup0_bumpList]
    simp only [List.map_cons, List.sum_cons]
    omega

theorem alookup_vocabFold_none {α : Type} [DecidableEq α] (itemf : String → List α)
    (k : α) :
    ∀ (vocab : List (String × Nat)) (d : List (α × Nat)),
    (alookup k (vocab.foldl
        (fun acc wf => (itemf wf.1).foldl (fun a p => bump p wf.2 a) acc) d) = none ↔
      alookup k d = none ∧ ∀ wf ∈ vocab, k ∉ itemf wf.1) := by
  intro vocab
  induction vocab with
  | nil => intro d; simp
  | cons wf₁ vocab' ih =>
    intro d
    show (alookup k (vocab'.foldl _
      ((itemf wf₁.1).foldl (fun a p => bump p wf₁.2 a) d)) = none ↔ _)
    rw [ih, alookup_bumpList_none]
    constructor
    · rintro ⟨⟨h1, h2⟩, h3⟩
      refine ⟨h1, ?_⟩
      intro wf hwf
      rcases List.mem_cons.1 hwf with rfl | hwf'
      · exact h2
      · exact h3 wf hwf'
    · rintro ⟨h1, h2⟩
      exact ⟨⟨h1, h2 wf₁ (by simp)⟩, fun wf hwf => h2 wf (by simp [hwf])⟩

/-- Aggregate value `get_stats` reports for one pair. -/
theorem get_stats_value (v : List (String × Nat)) (p : String × String) :
    alookup0 p (get_stats v) =
      (v.map (fun wf => wf.2 * lcount p (adjPairs (pySplit wf.1)))).sum := by
  have := alookup0_vocabFold (fun w => adjPairs (pySplit w)) p v []
  simpa [get_stats, alookup0, alookup] using this

/-- Key absence in `get_stats`. -/
theorem get_stats_none (v : List (String × Nat)) (p : String × String) :
    (alookup p (get_stats v) = none ↔ ∀ wf ∈ v, p ∉ adjPairs (pySplit wf.1)) := by
  have := alookup_vocabFold_none (fun w => adjPairs (pySplit w)) p v []
  simpa [get_stats, alookup] using this

/-- Aggregate value `get_tokens` reports for one symbol. -/
theorem get_tokens_value (v : List (String × Nat)) (t : String) :
    alookup0 t (get_tokens v) =
      (v.map (fun wf => wf.2 * lcount t (pySplit wf.1))).sum := by
  have := alookup0_vocabFold (fun w => pySplit w) t v []
  simpa [get_tokens, alookup0, alookup] using this

/-! ### The substitution preserves the non-whitespace character stream -/

theorem subW_filter (pat rep : List Char) (q : Char → Bool)
    (hq : pat.filter q = rep.filter q) :
    ∀ (n : Nat) (s : List Char) (bnd : Bool), s.length ≤ n →
    (subW pat rep bnd s).filter q = s.filter q := by
  cases pat with
  | nil => intro n s bnd _; rfl
  | cons p₀ ps =>
    intro n
    induction n with
    | zero =>
      intro s bnd h
      rw [List.length_eq_zero.1 (Nat.le_zero.1 h), subW_mt]
    | succ n ih =>
      intro s bnd hlen
      cases s with
      | nil => rw [subW_mt]
      | cons c rest =>
        rw [subW_cons _ rep (by simp) bnd c rest]
        split
        · rename_i hcond
          simp only [Bool.and_eq_true] at hcond
          obtain ⟨⟨-, hpre⟩, -⟩ := hcond
          obtain ⟨t, hst⟩ := (litPre_iff _ _).1 hpre
          have hdrop : (c :: rest).drop (p₀ :: ps).length = t := by
            rw [hst, List.drop_left]
          have htlen : t.length ≤ n := by
            have hl := congrArg List.length hst
            simp only [List.length_cons, List.length_append] at hl hlen
            omega
          rw [List.filter_append, hdrop, ih t _ htlen, hst, List.filter_append, hq]
        · rw [List.filter_cons, List.filter_cons, ih rest _ (by
            simp only [List.length_cons] at hlen; omega)]

theorem joinSp_filter (l : List (List Char)) :
    (joinSp l).filter (fun c => !pyspace c) =
      l.flatten.filter (fun c => !pyspace c) := by
  induction l with
  | nil => rfl
  | cons x tail ih =>
    cases tail with
    | nil => simp [joinSp]
    | cons y rest =>
      rw [joinSp_cons x _ (by simp), List.filter_append, List.filter_cons]
      simp only [pyspace_space, Bool.not_true, Bool.false_eq_true, if_false]
      rw [ih]
      rw [show (x :: y :: rest).flatten = x ++ (y :: rest).flatten from rfl,
        List.filter_append]

theorem splitAcc_flatten (t : List Char) :
    ∀ (acc : List Char),
    (splitAcc acc t).flatten = acc.reverse ++ t.filter (fun c => !pyspace c) := by
  induction t with
  | nil =>
    intro acc
    by_cases h : acc.isEmpty
    · rw [splitAcc]
      simp only [h, if_true]
      rw [List.isEmpty_iff.1 h]
      rfl
    · rw [splitAcc]
      simp only [h, Bool.false_eq_true, if_false]
      simp
  | cons c rest ih =>
    intro acc
    by_cases hc : pyspace c = true
    · rw [splitAcc, hc]
      simp only [if_true]
      by_cases ha : acc.isEmpty
      · simp only [ha, if_true]
        rw [ih [], List.isEmpty_iff.1 ha]
        simp [List.filter_cons, hc]
      · simp only [ha, Bool.false_eq_true, if_false]
        rw [show ((acc.reverse :: splitAcc [] rest).flatten)
            = acc.reverse ++ (splitAcc [] rest).flatten from rfl, ih []]
        simp [List.filter_cons, hc]
    · have hcf : pyspace c = false := by simpa using hc
      rw [splitAcc, hcf]
      simp only [Bool.false_eq_true, if_false]
      rw [ih (c :: acc)]
      simp [List.filter_cons, hcf]

theorem data_foldl_append (l : List String) :
    ∀ (s : String), (l.foldl (· ++ ·) s).data = s.data ++ (l.map String.data).flatten := by
  induction l with
  | nil => intro s; simp
  | cons x l' ih =>
    intro s
    show (l'.foldl (· ++ ·) (s ++ x)).data = _
    rw [ih (s ++ x), data_append]
    simp

theorem data_join (l : List String) :
    (String.join l).data = (l.map String.data).flatten := by
  show (l.foldl (· ++ ·) "").data = _
  rw [data_foldl_append]
  rfl

/-- Concatenating the split of a word recovers the word minus whitespace. -/
theorem join_pySplit (w : String) : String.join (pySplit w) = despace w := by
  apply str_ext
  rw [data_join]
  unfold pySplit despace
  rw [data_mk]
  have : ((splitAcc [] w.data).map String.mk).map String.data = splitAcc [] w.data := by
    simp only [List.map_map]
    have hid : (String.data ∘ String.mk) = id := funext fun l => rfl
    rw [hid, List.map_id]
  rw [this, splitAcc_flatten w.data []]
  rfl

/-- The merge substitution never creates or destroys non-whitespace text. -/
theorem despace_mergeKey (pair : List String) (w : String) :
    despace (mergeKeyLit pair w) = despace w := by
  apply str_ext
  unfold despace mergeKeyLit mergeKeyE subMain
  rw [data_mk, data_mk]
  apply subW_filter _ _ _ ?hq w.data.length w.data true le_rfl
  case hq =>
    rw [joinSp_filter]

/-! ### Outputs of the greedy tokenizer -/

theorem emit_mem (s token : String) (rest : List String) (unk : String) :
    ∀ (ends : List Nat) (start : Nat) (x : String),
    (∀ (s' : String) (x' : String),
      x' ∈ tokenize_word s' rest unk → x' ∈ rest ∨ x' = unk) →
    x ∈ emitMatches s token rest unk ends start →
    x = token ∨ x ∈ rest ∨ x = unk := by
  intro ends
  induction ends with
  | nil =>
    intro start x H hx
    rw [emitMatches] at hx
    rcases H _ x hx with h | h
    · exact Or.inr (Or.inl h)
    · exact Or.inr (Or.inr h)
  | cons e es ih =>
    intro start x H hx
    rw [emitMatches] at hx
    rcases List.mem_append.1 hx with hx | hx
    · rcases H _ x hx with h | h
      · exact Or.inr (Or.inl h)
      · exact Or.inr (Or.inr h)
    · rcases List.mem_cons.1 hx with rfl | hx
      · exact Or.inl rfl
      · exact ih _ x H hx

theorem try_mem (unk : String) :
    ∀ (toks : List String) (s : String) (x : String),
    (∀ (r : List String) (s' : String) (x' : String), r.length < toks.length →
      x' ∈ tokenize_word s' r unk → x' ∈ r ∨ x' = unk) →
    x ∈ tryTokens s toks unk → x ∈ toks ∨ x = unk := by
  intro toks
  induction toks with
  | nil =>
    intro s x _ hx
    rw [tryTokens] at hx
    simp at hx
  | cons token rest ih =>
    intro s x Htok hx
    rw [tryTokens] at hx
    by_cases hst : findMatches (replaceDots token) s.data = []
    · rw [if_pos hst] at hx
      rcases ih s x (fun r s' x' hr hx' =>
          Htok r s' x' (Nat.lt_trans hr (by simp)) hx') hx with h | h
      · exact Or.inl (List.mem_cons_of_mem _ h)
      · exact Or.inr h
    · rw [if_neg hst] at hx
      rcases emit_mem s token rest unk _ _ x
          (fun s' x' hx' => Htok rest s' x' (by simp) hx') hx with h | h | h
      · exact Or.inl (h ▸ List.mem_cons_self _ _)
      · exact Or.inl (List.mem_cons_of_mem _ h)
      · exact Or.inr h

theorem tok_mem (unk : String) :
    ∀ (n : Nat) (toks : List String), toks.length ≤ n →
    ∀ (s : String) (x : String),
    x ∈ tokenize_word s toks unk → x ∈ toks ∨ x = unk := by
  intro n
  induction n with
  | zero =>
    intro toks hlen s x hx
    rw [List.length_eq_zero.1 (Nat.le_zero.1 hlen)] at hx ⊢
    rw [tokenize_word.eq_def] at hx
    by_cases hs : s = ""
    · rw [if_pos hs] at hx
      simp at hx
    · rw [if_neg hs] at hx
      exact Or.inr (List.mem_singleton.1 hx)
  | succ n ih =>
    intro toks hlen s x hx
    rw [tokenize_word.eq_def] at hx
    by_cases hs : s = ""
    · rw [if_pos hs] at hx
      simp at hx
    · rw [if_neg hs] at hx
      cases toks with
      | nil => exact Or.inr (List.mem_singleton.1 hx)
      | cons t rest =>
        refine try_mem unk (t :: rest) s x ?_ hx
        intro r s' x' hr hx'
        exact ih r (by simp at hlen hr; omega) s' x' hx'

/-- On a well-formed word, the merge key is the join of the structurally
merged symbol sequence. -/
theorem mergeKeyLit_wfWord (a b : String) (ha : wfSym a) (hb : wfSym b)
    {w : String} (hw : wfWord w) :
    mergeKeyLit [a, b] w = joinS (mergePairs a b (pySplit w)) := by
  have h := mergeKeyLit_joinS a b ha hb (pySplit w) (pySplit_wf w)
  rw [← hw] at h
  exact h

/-- The split of a merged well-formed word is the structurally merged
symbol sequence. -/
theorem pySplit_mergeKey (a b : String) (ha : wfSym a) (hb : wfSym b)
    {w : String} (hw : wfWord w) :
    pySplit (mergeKeyLit [a, b] w) = mergePairs a b (pySplit w) := by
  rw [mergeKeyLit_wfWord a b ha hb hw,
    pySplit_joinS _ (mergePairs_wf a b ha hb _ (pySplit_wf w))]

/-! ### The claims -/

/-- C1: the specification says that a non-empty string with a non-empty
token list in which no token matches tokenizes to `[unknownMarker]`
(unmatchable residue is never dropped).  The code disagrees: the token
loop falls through with the accumulator still empty and returns `[]`,
silently dropping the residue.  At input string `"z"`, token list `["a"]`
and unknown marker `"</u>"`, the source returns `[]`, not `["</u>"]`. -/
theorem claim_C1_code_eval : tokenize_word "z" ["a"] "</u>" = [] := by
  simp [tokenize_word, tryTokens, findMatches, findGo, replaceDots, litPre]

/-- C4: the specification says a literal `'.'` in a token is matched as the
period character, e.g. `tokenize(".", ["."], u) = ["."]`.  The code first
replaces `'.'` by `'[.]'` and then `re.escape`s the result, so the compiled
pattern matches the literal three-character text `[.]` instead of `.`:
tokenizing `"."` with token list `["."]` returns `[]` (the token never
matches itself), while the text `"x[.]y"` *is* matched by the token `"."`.
-/
theorem claim_C4_code_eval :
    tokenize_word "." ["."] "</u>" = [] ∧
    tokenize_word "x[.]y" ["."] "</u>" = ["</u>", ".", "</u>"] := by
  constructor
  · simp [tokenize_word, tryTokens, findMatches, findGo, replaceDots, litPre]
  · simp [tokenize_word, tryTokens, emitMatches, findMatches, findGo,
      replaceDots, litPre, pySlice]

/-- C8: `measure_token_length "</w>" = 1` and
`measure_token_length "hi</w>" = 3`; in general a token that ends in the
end-of-word marker `"</w>"` measures the length of the part before the
marker plus exactly 1, and a token that does not end in the marker measures
its full character length. -/
theorem claim_C8 :
    measure_token_length "</w>" = 1 ∧ measure_token_length "hi</w>" = 3 ∧
    ∀ t : String,
      (∀ u : List Char, t.data = u ++ "</w>".data →
        measure_token_length t = u.length + 1) ∧
      ((¬ ∃ u : List Char, t.data = u ++ "</w>".data) →
        measure_token_length t = t.data.length) := by
  refine ⟨by decide, by decide, ?_⟩
  intro t
  constructor
  · intro u hu
    unfold measure_token_length
    have h4 : (u ++ "</w>".data).length - 4 = u.length := by simp
    have hdrop : t.data.drop (t.data.length - 4) = "</w>".data := by
      rw [hu, h4, List.drop_left]
    have htake : t.data.take (t.data.length - 4) = u := by
      rw [hu, h4, List.take_left]
    rw [hdrop, htake]
    simp
  · intro hne
    unfold measure_token_length
    rw [if_neg]
    intro hcond
    apply hne
    refine ⟨t.data.take (t.data.length - 4), ?_⟩
    have hdd : t.data.drop (t.data.length - 4) = "</w>".data :=
      congrArg String.data hcond
    conv_lhs => rw [← List.take_append_drop (t.data.length - 4) t.data]
    rw [hdd]

/-- C10: every element of the sequence returned by `tokenize_word` is
either one of the supplied sorted tokens or the unknown marker itself; no
other symbol is ever emitted. -/
theorem claim_C10 (string : String) (sorted_tokens : List String)
    (unknown_token x : String) (hx : x ∈ tokenize_word string sorted_tokens unknown_token) :
    x ∈ sorted_tokens ∨ x = unknown_token :=
  tok_mem unknown_token sorted_tokens.length sorted_tokens le_rfl string x hx

theorem claim_C10_witness :
    "</u>" ∈ ([] : List String) ∨ "</u>" = "</u>" :=
  claim_C10 "xyz" [] "</u>" "</u>" (by simp [tokenize_word])

theorem pair_no_bs {a b : String} (hbsa : '\\' ∉ a.data) (hbsb : '\\' ∉ b.data) :
    ∀ s ∈ ([a, b] : List String), '\\' ∉ s.data := by
  intro s hs
  rcases List.mem_cons.1 hs with rfl | hs
  · exact hbsa
  · rcases List.mem_cons.1 hs with rfl | hs
    · exact hbsb
    · simp at hs

/-- C3: the specification says `merge_vocab` fails loudly on a pair that is
not exactly two symbols.  The code performs no arity validation: a
malformed pair is processed like any other — the three-symbol pair
`("a","b","c")` silently turns the word `"a b c </w>"` into `"abc </w>"`
and a result table is returned.  The only exception the function can raise
comes from compiling the replacement template and is independent of arity:
the well-arity two-symbol pair `("a","\")` raises just the same (its joined
replacement ends in a lone backslash). -/
theorem claim_C3_counterexample :
    merge_vocab ["a", "b", "c"] [("a b c </w>", 2)] = some [("abc </w>", 2)] ∧
    merge_vocab ["a", "\\"] [("a \\ </w>", 1)] = none := by
  constructor
  · simp [merge_vocab, mergeRepl, parseTmpl, tmplEsc, renderTmpl, mergeKeyE,
      subMain, subW, subGo, litPre, aheadOk, pyspace, joinSp, dictInsert]
  · simp [merge_vocab, mergeRepl, parseTmpl, tmplEsc]

/-- C3 (amended): `merge_vocab` does not validate the arity of its pair: a
pair with fewer or more than two symbols, none containing a backslash (so
that its joined text is a valid replacement template), raises no error and
is silently processed into a result table in which every input word appears
under its pattern-substituted key.  The only failure the function has is
the replacement-template error, which is unrelated to arity. -/
theorem claim_C3 (pair : List String) (tbl : List (String × Nat))
    (_hlen : pair.length ≠ 2) (hbs : ∀ s ∈ pair, '\\' ∉ s.data) :
    ∃ M, merge_vocab pair tbl = some M ∧
      ∀ w f, (w, f) ∈ tbl → ∃ f', (mergeKeyLit pair w, f') ∈ M :=
  ⟨_, merge_vocab_no_bs pair hbs tbl,
    fun w f hw => merge_fold_mem pair tbl [] (mergeKeyLit pair w) (Or.inr ⟨w, f, hw, rfl⟩)⟩

theorem claim_C3_witness :
    (["a", "b", "c"] : List String).length ≠ 2 ∧
    (∀ s ∈ (["a", "b", "c"] : List String), '\\' ∉ s.data) ∧
    ∃ M, merge_vocab ["a", "b", "c"] [("a b c </w>", 2)] = some M ∧
      ∀ w f, (w, f) ∈ ([("a b c </w>", 2)] : List (String × Nat)) →
        ∃ f', (mergeKeyLit ["a", "b", "c"] w, f') ∈ M :=
  ⟨by decide, by decide,
    claim_C3 ["a", "b", "c"] [("a b c </w>", 2)] (by decide) (by decide)⟩

/-- C2: the claim fails on the program as universally stated, because
`re.sub` template-expands the replacement `''.join(pair)`.  With the
well-formed pair `("\","\")` on the well-formed table `{"\ \ \": 1}` the
replacement `\\` expands to a single backslash: the program returns
`{"\ \": 1}` whereas the structural whole-symbol fusion of the claim gives
`{"\\ \": 1}` — and a pair such as `("\","q")` raises instead of merging. -/
theorem claim_C2_counterexample :
    wfSym "\\" ∧ wfTable ([("\\ \\ \\", 1)] : List (String × Nat)) ∧
    merge_vocab ["\\", "\\"] [("\\ \\ \\", 1)] = some [("\\ \\", 1)] ∧
    mergeVocabSpec "\\" "\\" [("\\ \\ \\", 1)] = [("\\\\ \\", 1)] ∧
    ("\\ \\" : String) ≠ "\\\\ \\" := by
  refine ⟨by decide, by decide, ?_, by decide, by decide⟩
  simp [merge_vocab, mergeRepl, parseTmpl, tmplEsc, renderTmpl, mergeKeyE,
    subMain, subW, subGo, litPre, aheadOk, pyspace, joinSp, dictInsert]

/-- C2 (amended): for well-formed symbols that contain no backslash (so the
template expansion of the replacement is the identity) and a well-formed
table, `merge_vocab` replaces only occurrences of `a` and `b` as two
consecutive, whole, whitespace-separated symbols of a word — the rebuilt
table equals the structural specification `mergeVocabSpec`, which fuses
adjacent symbol pairs of the split word and never touches text inside a
longer symbol (so e.g. pair `("a","b")` leaves the word `"c ab d"`
unchanged). -/
theorem claim_C2 (a b : String) (tbl : List (String × Nat))
    (ha : wfSym a) (hb : wfSym b)
    (hbsa : '\\' ∉ a.data) (hbsb : '\\' ∉ b.data) (htbl : wfTable tbl) :
    merge_vocab [a, b] tbl = some (mergeVocabSpec a b tbl) := by
  rw [merge_vocab_no_bs [a, b] (pair_no_bs hbsa hbsb) tbl]
  congr 1
  unfold mergeVocabSpec
  suffices h : ∀ (tbl' : List (String × Nat)), wfTable tbl' →
      ∀ acc, tbl'.foldl (fun acc wf => dictInsert (mergeKeyLit [a, b] wf.1) wf.2 acc) acc =
        tbl'.foldl (fun acc wf =>
          dictInsert (joinS (mergePairs a b (pySplit wf.1))) wf.2 acc) acc from
    h tbl htbl []
  intro tbl'
  induction tbl' with
  | nil => intro _ acc; rfl
  | cons wf₁ t ih =>
    intro hwf acc
    show t.foldl _ (dictInsert (mergeKeyLit [a, b] wf₁.1) wf₁.2 acc) = _
    rw [mergeKeyLit_wfWord a b ha hb (hwf wf₁ (by simp))]
    exact ih (fun p hp => hwf p (by simp [hp])) _

theorem claim_C2_witness :
    wfSym "a" ∧ wfSym "b" ∧ wfTable ([("c ab d", 1)] : List (String × Nat)) ∧
    merge_vocab ["a", "b"] [("c ab d", 1)] = some [("c ab d", 1)] :=
  ⟨by decide, by decide, by decide,
    (claim_C2 "a" "b" [("c ab d", 1)] (by decide) (by decide) (by decide)
      (by decide) (by decide)).trans (by decide)⟩

/-- C9: the claim fails on the program as universally stated.  With pair
`("\","n")` on the well-formed table `{"\ n </w>": 1}` the replacement
`''.join(pair)` is the template `\n`, which expands to a newline: the two
characters backslash and `n` of the word are replaced by one newline (then
invisible to the whitespace-stripped comparison), so the despaced output
key `"</w>"` differs from the concatenation `"\n</w>"` of the word's
symbols; and a pair such as `("\","q")` raises instead of merging. -/
theorem claim_C9_counterexample :
    wfTable ([("\\ n </w>", 1)] : List (String × Nat)) ∧
    merge_vocab ["\\", "n"] [("\\ n </w>", 1)] = some [("\n </w>", 1)] ∧
    despace "\n </w>" ≠ String.join (pySplit "\\ n </w>") ∧
    merge_vocab ["\\", "q"] [("\\ q </w>", 1)] = none := by
  refine ⟨by decide, ?_, by decide, ?_⟩
  · simp [merge_vocab, mergeRepl, parseTmpl, tmplEsc, renderTmpl, mergeKeyE,
      subMain, subW, subGo, litPre, aheadOk, pyspace, joinSp, dictInsert]
  · simp [merge_vocab, mergeRepl, parseTmpl, tmplEsc]

/-- C9 (amended): for a pair of backslash-free symbols (so the replacement
is the plain concatenation of the pair) and a well-formed table, merging
preserves each word's underlying text: every input key `w` is mapped to an
output key of the returned table, and that key with all whitespace removed
equals the concatenation of `w`'s symbols — fusing only deletes internal
separators, never characters. -/
theorem claim_C9 (a b : String) (tbl : List (String × Nat))
    (hbsa : '\\' ∉ a.data) (hbsb : '\\' ∉ b.data) (_htbl : wfTable tbl) :
    ∃ M, merge_vocab [a, b] tbl = some M ∧
      ∀ w f, (w, f) ∈ tbl →
        (∃ f', (mergeKeyLit [a, b] w, f') ∈ M) ∧
        despace (mergeKeyLit [a, b] w) = String.join (pySplit w) := by
  refine ⟨_, merge_vocab_no_bs [a, b] (pair_no_bs hbsa hbsb) tbl, ?_⟩
  intro w f hw
  refine ⟨merge_fold_mem [a, b] tbl [] _ (Or.inr ⟨w, f, hw, rfl⟩), ?_⟩
  rw [despace_mergeKey]
  exact (join_pySplit w).symm

theorem claim_C9_witness :
    '\\' ∉ ("a" : String).data ∧ '\\' ∉ ("b" : String).data ∧
    wfTable ([("a b </w>", 2)] : List (String × Nat)) ∧
    ∃ M, merge_vocab ["a", "b"] [("a b </w>", 2)] = some M ∧
      ∀ w f, (w, f) ∈ ([("a b </w>", 2)] : List (String × Nat)) →
        (∃ f', (mergeKeyLit ["a", "b"] w, f') ∈ M) ∧
        despace (mergeKeyLit ["a", "b"] w) = String.join (pySplit w) :=
  ⟨by decide, by decide, by decide,
    claim_C9 "a" "b" [("a b </w>", 2)] (by decide) (by decide) (by decide)⟩

/-- C6: the claim fails on the program as universally stated.  With the
well-formed self-pair `("\","\")` on the well-formed table `{"\ \ \": 1}`
the template-expanded replacement is a single backslash: the program
returns `{"\ \": 1}`, and the recomputed pair statistics still contain an
entry for `("\","\")`. -/
theorem claim_C6_counterexample :
    wfSym "\\" ∧ wfTable ([("\\ \\ \\", 1)] : List (String × Nat)) ∧
    merge_vocab ["\\", "\\"] [("\\ \\ \\", 1)] = some [("\\ \\", 1)] ∧
    alookup ("\\", "\\") (get_stats [("\\ \\", 1)]) = some 1 := by
  refine ⟨by decide, by decide, ?_, by decide⟩
  simp [merge_vocab, mergeRepl, parseTmpl, tmplEsc, renderTmpl, mergeKeyE,
    subMain, subW, subGo, litPre, aheadOk, pyspace, joinSp, dictInsert]

/-- C6 (amended): for a pair of backslash-free symbols (so the replacement
is the fused concatenation) and a well-formed table, `merge_vocab` returns
a table whose recomputed pair statistics contain no entry for the pair —
after the merge the two symbols never occur adjacently in any word. -/
theorem claim_C6 (a b : String) (tbl : List (String × Nat))
    (hbsa : '\\' ∉ a.data) (hbsb : '\\' ∉ b.data) (htbl : wfTable tbl) :
    ∃ M, merge_vocab [a, b] tbl = some M ∧
      alookup (a, b) (get_stats M) = none := by
  refine ⟨_, merge_vocab_no_bs [a, b] (pair_no_bs hbsa hbsb) tbl, ?_⟩
  rw [get_stats_none]
  intro wf hwf hadj
  obtain ⟨w, f, hw, hk⟩ : ∃ w f, (w, f) ∈ tbl ∧ wf.1 = mergeKeyLit [a, b] w := by
    rcases merge_fold_keys [a, b] tbl [] wf hwf with h' | h'
    · simp at h'
    · exact h'
  by_cases hab : wfSym a ∧ wfSym b
  · obtain ⟨ha, hb⟩ := hab
    have hsplit : pySplit wf.1 = mergePairs a b (pySplit w) := by
      rw [hk, pySplit_mergeKey a b ha hb (htbl _ hw)]
    rw [hsplit] at hadj
    exact mergePairs_not_adj a b ha.1 hb.1 _ _ le_rfl hadj
  · have hma : a ∈ pySplit wf.1 := (List.of_mem_zip hadj).1
    have hmb : b ∈ pySplit wf.1 := List.mem_of_mem_tail (List.of_mem_zip hadj).2
    have wfa := pySplit_wf wf.1 a hma
    have wfb := pySplit_wf wf.1 b hmb
    exact hab ⟨⟨wfa.1, wfa.2⟩, ⟨wfb.1, wfb.2⟩⟩

theorem claim_C6_witness :
    '\\' ∉ ("l" : String).data ∧ '\\' ∉ ("o" : String).data ∧
    wfTable ([("l o w </w>", 5)] : List (String × Nat)) ∧
    ∃ M, merge_vocab ["l", "o"] [("l o w </w>", 5)] = some M ∧
      alookup ("l", "o") (get_stats M) = none :=
  ⟨by decide, by decide, by decide,
    claim_C6 "l" "o" [("l o w </w>", 5)] (by decide) (by decide) (by decide)⟩

/-- C5: the claim that `merge_vocab` never loses or overwrites a frequency
is false: two distinct words can merge to the same key, and the dictionary
assignment overwrites.  With pair `("a","b")` and the table
`{"a b </w>": 1, "ab </w>": 2}` both words map to the key `"ab </w>"` and
the first word's frequency 1 is lost.  The well-formed backslash pair
`("\","\")` on `{"\ \": 1, "\": 2}` loses a frequency the same way through
the template-expanded replacement, although the structural fusions of the
two words are distinct. -/
theorem claim_C5_counterexample :
    merge_vocab ["a", "b"] [("a b </w>", 1), ("ab </w>", 2)] = some [("ab </w>", 2)] ∧
    merge_vocab ["\\", "\\"] [("\\ \\", 1), ("\\", 2)] = some [("\\", 2)] ∧
    (1 : Nat) ≠ 2 := by
  refine ⟨?_, ?_, by decide⟩
  · simp [merge_vocab, mergeRepl, parseTmpl, tmplEsc, renderTmpl, mergeKeyE,
      subMain, subW, subGo, litPre, aheadOk, pyspace, joinSp, dictInsert]
  · simp [merge_vocab, mergeRepl, parseTmpl, tmplEsc, renderTmpl, mergeKeyE,
      subMain, subW, subGo, litPre, aheadOk, pyspace, joinSp, dictInsert]

/-- C5 (amended): for well-formed, backslash-free symbols and a well-formed
table, and *provided no two input words merge to the same key*,
`merge_vocab` returns a table in which every input word's frequency is
carried over unchanged to that word's merged key, and every word not
containing the pair keeps its key and appears with its original
frequency. -/
theorem claim_C5 (a b : String) (tbl : List (String × Nat))
    (ha : wfSym a) (hb : wfSym b)
    (hbsa : '\\' ∉ a.data) (hbsb : '\\' ∉ b.data) (htbl : wfTable tbl)
    (hnd : (tbl.map (fun wf => joinS (mergePairs a b (pySplit wf.1)))).Nodup) :
    ∃ M, merge_vocab [a, b] tbl = some M ∧
      (∀ w f, (w, f) ∈ tbl → alookup (mergeKeyLit [a, b] w) M = some f) ∧
      (∀ w f, (w, f) ∈ tbl → (a, b) ∉ adjPairs (pySplit w) →
        mergeKeyLit [a, b] w = w ∧ (w, f) ∈ M) := by
  have hnd' : (tbl.map (fun wf => mergeKeyLit [a, b] wf.1)).Nodup := by
    have hmc : tbl.map (fun wf => mergeKeyLit [a, b] wf.1) =
        tbl.map (fun wf => joinS (mergePairs a b (pySplit wf.1))) :=
      List.map_congr_left (fun wf hwf => mergeKeyLit_wfWord a b ha hb (htbl _ hwf))
    rw [hmc]
    exact hnd
  refine ⟨tbl.map (fun wf => (mergeKeyLit [a, b] wf.1, wf.2)),
    merge_vocab_eq_map [a, b] (pair_no_bs hbsa hbsb) tbl hnd', ?_, ?_⟩
  · intro w f hw
    exact alookup_map_nodup [a, b] tbl w f hw hnd'
  · intro w f hw hadj
    have hww : wfWord w := htbl _ hw
    have h1 : mergeKeyLit [a, b] w = w := by
      rw [mergeKeyLit_wfWord a b ha hb hww, mergePairs_id a b _ _ le_rfl hadj, ← hww]
    refine ⟨h1, ?_⟩
    have hm : ((fun wf => (mergeKeyLit [a, b] wf.1, wf.2)) (w, f)) ∈
        tbl.map (fun wf => (mergeKeyLit [a, b] wf.1, wf.2)) :=
      List.mem_map.2 ⟨(w, f), hw, rfl⟩
    simpa [h1] using hm

theorem claim_C5_witness :
    wfSym "a" ∧ wfSym "b" ∧ '\\' ∉ ("a" : String).data ∧
    wfTable ([("a b </w>", 3), ("c d </w>", 7)] : List (String × Nat)) ∧
    ∃ M, merge_vocab ["a", "b"] [("a b </w>", 3), ("c d </w>", 7)] = some M ∧
      (∀ w f, (w, f) ∈ ([("a b </w>", 3), ("c d </w>", 7)] : List (String × Nat)) →
        alookup (mergeKeyLit ["a", "b"] w) M = some f) ∧
      (∀ w f, (w, f) ∈ ([("a b </w>", 3), ("c d </w>", 7)] : List (String × Nat)) →
        ("a", "b") ∉ adjPairs (pySplit w) →
        mergeKeyLit ["a", "b"] w = w ∧ (w, f) ∈ M) :=
  ⟨by decide, by decide, by decide, by decide,
    claim_C5 "a" "b" [("a b </w>", 3), ("c d </w>", 7)]
      (by decide) (by decide) (by decide) (by decide) (by decide) (by decide)⟩

/-- C7: the claim fails in three independent ways.  Overlap: with the
self-pair `("a","a")` on `{"a a a </w>": 1}` the stats count is 2 but the
fused symbol `"aa"` gets token frequency 1 in the merged table.
Collision: with pair `("a","b")` on `{"a b </w>": 5, "ab </w>": 1}` both
words merge to the key `"ab </w>"`, the table is overwritten to
`{"ab </w>": 1}`, and the fused symbol's frequency 1 is below the stats
value 5.  Template expansion: with the well-formed pair `("\","n")` on
`{"\ n </w>": 1}` the replacement becomes a newline, so the fused symbol
`"\n"` (backslash-n) has token frequency 0 below the stats value 1, with
distinct structural merged keys. -/
theorem claim_C7_counterexample :
    alookup0 ("a", "a") (get_stats [("a a a </w>", 1)]) = 2 ∧
    merge_vocab ["a", "a"] [("a a a </w>", 1)] = some [("aa a </w>", 1)] ∧
    alookup0 "aa" (get_tokens [("aa a </w>", 1)]) = 1 ∧
    alookup0 ("a", "b") (get_stats [("a b </w>", 5), ("ab </w>", 1)]) = 5 ∧
    merge_vocab ["a", "b"] [("a b </w>", 5), ("ab </w>", 1)] = some [("ab </w>", 1)] ∧
    alookup0 "ab" (get_tokens [("ab </w>", 1)]) = 1 ∧
    alookup0 ("\\", "n") (get_stats [("\\ n </w>", 1)]) = 1 ∧
    merge_vocab ["\\", "n"] [("\\ n </w>", 1)] = some [("\n </w>", 1)] ∧
    alookup0 ("\\" ++ "n") (get_tokens [("\n </w>", 1)]) = 0 := by
  refine ⟨by decide, ?_, by decide, by decide, ?_, by decide, by decide, ?_, by decide⟩
  all_goals
    simp [merge_vocab, mergeRepl, parseTmpl, tmplEsc, renderTmpl, mergeKeyE,
      subMain, subW, subGo, litPre, aheadOk, pyspace, joinSp, dictInsert]

/-- C7 (amended): for a pair of *distinct*, backslash-free symbols present
in the stats of a well-formed table, and *provided no two input words merge
to the same key*, `merge_vocab` returns a table in which the fused symbol's
aggregate `get_tokens` frequency is at least the frequency `get_stats`
assigned to the pair in the original table. -/
theorem claim_C7 (a b : String) (tbl : List (String × Nat))
    (hab : a ≠ b) (hbsa : '\\' ∉ a.data) (hbsb : '\\' ∉ b.data)
    (htbl : wfTable tbl)
    (hpresent : alookup (a, b) (get_stats tbl) ≠ none)
    (hnd : (tbl.map (fun wf => joinS (mergePairs a b (pySplit wf.1)))).Nodup) :
    ∃ M, merge_vocab [a, b] tbl = some M ∧
      alookup0 (a, b) (get_stats tbl) ≤ alookup0 (a ++ b) (get_tokens M) := by
  obtain ⟨wfp, hwfp, hadj⟩ : ∃ wf ∈ tbl, (a, b) ∈ adjPairs (pySplit wf.1) := by
    by_contra hcon
    push_neg at hcon
    exact hpresent ((get_stats_none tbl (a, b)).2 hcon)
  have ha : wfSym a := by
    have hma := (List.of_mem_zip hadj).1
    have := pySplit_wf wfp.1 a hma
    exact ⟨this.1, this.2⟩
  have hb : wfSym b := by
    have hmb := List.mem_of_mem_tail (List.of_mem_zip hadj).2
    have := pySplit_wf wfp.1 b hmb
    exact ⟨this.1, this.2⟩
  have hnd' : (tbl.map (fun wf => mergeKeyLit [a, b] wf.1)).Nodup := by
    have hmc : tbl.map (fun wf => mergeKeyLit [a, b] wf.1) =
        tbl.map (fun wf => joinS (mergePairs a b (pySplit wf.1))) :=
      List.map_congr_left (fun wf hwf => mergeKeyLit_wfWord a b ha hb (htbl _ hwf))
    rw [hmc]
    exact hnd
  refine ⟨tbl.map (fun wf => (mergeKeyLit [a, b] wf.1, wf.2)),
    merge_vocab_eq_map [a, b] (pair_no_bs hbsa hbsb) tbl hnd', ?_⟩
  rw [get_stats_value, get_tokens_value, List.map_map]
  apply List.sum_le_sum
  intro wf hwf
  show wf.2 * lcount (a, b) (adjPairs (pySplit wf.1)) ≤
    wf.2 * lcount (a ++ b) (pySplit (mergeKeyLit [a, b] wf.1))
  rw [pySplit_mergeKey a b ha hb (htbl _ hwf)]
  exact Nat.mul_le_mul_left _ (mergePairs_count a b hab _ _ le_rfl)

theorem claim_C7_witness :
    ("a" : String) ≠ "b" ∧ '\\' ∉ ("a" : String).data ∧
    wfTable ([("a b </w>", 3)] : List (String × Nat)) ∧
    alookup ("a", "b") (get_stats [("a b </w>", 3)]) ≠ none ∧
    ∃ M, merge_vocab ["a", "b"] [("a b </w>", 3)] = some M ∧
      alookup0 ("a", "b") (get_stats [("a b </w>", 3)]) ≤
        alookup0 ("a" ++ "b") (get_tokens M) :=
  ⟨by decide, by decide, by decide, by decide,
    claim_C7 "a" "b" [("a b </w>", 3)] (by decide) (by decide) (by decide)
      (by decide) (by decide) (by decide)⟩

theorem claim_C8_witness :
    "ab</w>".data = ['a', 'b'] ++ "</w>".data ∧
    measure_token_length "ab</w>" = ['a', 'b'].length + 1 ∧
    measure_token_length "abc" = "abc".data.length := by
  refine ⟨by decide, (claim_C8.2.2 "ab</w>").1 ['a', 'b'] (by decide),
    (claim_C8.2.2 "abc").2 ?_⟩
  rintro ⟨u, hu⟩
  have hl := congrArg List.length hu
  simp at hl
